import Mathlib

/-!
Verification of the Mesos provisioner backends (Copy backend and Windows
layer backend) against their natural-language specification.

The development shallowly embeds the code of
`src/slave/containerizer/mesos/provisioner/backends/copy.cpp` and
`src/slave/containerizer/mesos/provisioner/backends/wclayer.cpp` over an
explicit filesystem model.  A filesystem is a finite association list from
absolute paths (lists of name components) to nodes (directory, regular
file with content, or symbolic link with target).  Layers are passed as
data: a list of (layer-relative path, node) pairs listed in the physical
preorder in which `fts_read` (POSIX) / `directory_iterator` recursion
(Windows) visits them; parents appear before children and the layer root
itself is not listed (the code skips it).

Stout primitives that the excerpt only declares are modelled from the
spec, which documents their semantics (notably section 9: `os::exists`
and `os::stat::isdir` follow symbolic links, `os::stat::islink` does
not; `os::rm` unlinks a single entry, `os::rmdir` removes a subtree).
External tools (`cp -aT`, `rm -rf`, `wclayer`, and the C++
`std::experimental::filesystem::copy` call) are modelled from their
documented contracts, noted at each definition.
-/

namespace Mesos

/-- A path: a list of name components, from the filesystem root. -/
abbrev FPath := List String

/-- A filesystem node: directory, regular file with content, or symbolic
link with an absolute target path. -/
inductive Node where
  | dir : Node
  | file (content : String) : Node
  | link (target : FPath) : Node
deriving DecidableEq, Repr

/-- A filesystem: an association list from absolute paths to nodes.
Lookup takes the first binding; the removal operations below delete every
binding of the affected keys, so duplicate keys never resurface. -/
abbrev FS := List (FPath × Node)

instance instDecEqExcept {α β : Type} [DecidableEq α] [DecidableEq β] :
    DecidableEq (Except α β) := fun x y =>
  match x, y with
  | .error a, .error b =>
    if h : a = b then isTrue (by rw [h])
    else isFalse (fun hc => h (Except.error.inj hc))
  | .error _, .ok _ => isFalse (fun hc => Except.noConfusion hc)
  | .ok _, .error _ => isFalse (fun hc => Except.noConfusion hc)
  | .ok a, .ok b =>
    if h : a = b then isTrue (by rw [h])
    else isFalse (fun hc => h (Except.ok.inj hc))

/-- A layer, as the physical preorder listing of its entries:
(layer-relative path, node) pairs, parents before children, layer root
omitted. -/
abbrev Layer := List (FPath × Node)

/-- Boolean list-prefix test (used both for path containment and for the
whiteout name test of `strings::startsWith`). -/
def lPre {α : Type} [DecidableEq α] : List α → List α → Bool
  | [], _ => true
  | _ :: _, [] => false
  | a :: as, b :: bs => if a = b then lPre as bs else false

theorem lPre_append {α : Type} [DecidableEq α] (r s : List α) :
    lPre r (r ++ s) = true := by
  induction r with
  | nil => rfl
  | cons a as ih => simp [lPre, ih]

theorem lPre_iff {α : Type} [DecidableEq α] (r q : List α) :
    lPre r q = true ↔ ∃ s, q = r ++ s := by
  induction r generalizing q with
  | nil => simp [lPre]
  | cons a as ih =>
    cases q with
    | nil => simp [lPre]
    | cons b bs =>
      constructor
      · intro h
        simp only [lPre] at h
        split at h
        · rename_i hab
          obtain ⟨s, hs⟩ := (ih bs).mp h
          exact ⟨s, by simp [hab, hs]⟩
        · exact absurd h (by simp)
      · rintro ⟨s, hs⟩
        simp only [List.cons_append] at hs
        obtain ⟨h1, h2⟩ := List.cons.injEq .. ▸ hs
        subst h1
        simp only [lPre, if_pos rfl]
        exact (ih bs).mpr ⟨s, h2⟩

theorem lPre_refl {α : Type} [DecidableEq α] (r : List α) : lPre r r = true := by
  have := lPre_append r []
  simpa using this

/-- Raw (lstat-like) lookup of a path in the filesystem. -/
def lookup : FS → FPath → Option Node
  | [], _ => none
  | e :: fs, p => if e.1 = p then some e.2 else lookup fs p

/-- Unlink of a single path (the `::unlink` behind `os::rm`): removes
exactly the bindings of that path, never following links, never touching
descendants. -/
def removeExact (p : FPath) (fs : FS) : FS :=
  fs.filter (fun e => decide (e.1 ≠ p))

/-- Recursive directory removal (the stout `os::rmdir` with its default
recursive mode, per the spec): removes the path and its whole subtree. -/
def removeTree (p : FPath) (fs : FS) : FS :=
  fs.filter (fun e => !(lPre p e.1))

/-- Insertion (creation or same-path overwrite) of a node at a path. -/
def insertFS (p : FPath) (n : Node) (fs : FS) : FS :=
  (p, n) :: removeExact p fs

theorem lookup_removeExact (p : FPath) (fs : FS) (q : FPath) :
    lookup (removeExact p fs) q = if q = p then none else lookup fs q := by
  induction fs with
  | nil => simp [removeExact, lookup]
  | cons e fs ih =>
    by_cases he : e.1 = p
    · have h1 : removeExact p (e :: fs) = removeExact p fs := by
        simp [removeExact, List.filter_cons, he]
      rw [h1, ih]
      by_cases hq : q = p
      · simp [hq]
      · have hne : ¬ (e.1 = q) := by
          rw [he]
          exact fun h => hq h.symm
        simp [hq, lookup, hne]
    · have h1 : removeExact p (e :: fs) = e :: removeExact p fs := by
        simp [removeExact, List.filter_cons, he]
      rw [h1]
      by_cases heq : e.1 = q
      · have hq : ¬ (q = p) := by
          rw [← heq]
          exact he
        simp [lookup, heq, hq]
      · simp only [lookup, heq, if_false]
        rw [ih]

theorem lookup_removeTree (p : FPath) (fs : FS) (q : FPath) :
    lookup (removeTree p fs) q = if lPre p q then none else lookup fs q := by
  induction fs with
  | nil => simp [removeTree, lookup]
  | cons e fs ih =>
    by_cases he : lPre p e.1 = true
    · have h1 : removeTree p (e :: fs) = removeTree p fs := by
        simp [removeTree, List.filter_cons, he]
      rw [h1, ih]
      by_cases hq : lPre p q = true
      · simp [hq]
      · have hne : ¬ (e.1 = q) := by
          intro h
          exact hq (h ▸ he)
        simp [hq, lookup, hne]
    · have h1 : removeTree p (e :: fs) = e :: removeTree p fs := by
        simp only [removeTree, List.filter_cons]
        simp [he]
      rw [h1]
      by_cases heq : e.1 = q
      · have hq : lPre p q ≠ true := by
          rw [← heq]
          exact he
        simp [lookup, heq, hq]
      · simp only [lookup, heq, if_false]
        rw [ih]

theorem lookup_insertFS (p : FPath) (n : Node) (fs : FS) (q : FPath) :
    lookup (insertFS p n fs) q = if q = p then some n else lookup fs q := by
  by_cases hq : q = p
  · simp [insertFS, lookup, hq]
  · have hpq : ¬ (p = q) := fun h => hq h.symm
    simp only [insertFS, lookup, hpq, if_false, if_neg hq]
    rw [lookup_removeExact]
    simp [hq]

/-- Symlink-following lookup with fuel (the kernel limits symlink chains;
forty steps mirrors the usual SYMLOOP bound).  Only the final component
is resolved: the claims under study never place a live symbolic link on
an interior component at check time (the scan removes such links before
their children are examined). -/
def statN (fs : FS) : Nat → FPath → Option Node
  | 0, _ => none
  | fuel + 1, p =>
    match lookup fs p with
    | some (Node.link t) => statN fs fuel t
    | r => r

/-- Modelled from the spec: `os::exists` and `os::stat` follow symbolic
links (spec section 9 records that the Copy backend decides
directory-ness with stat, not lstat). -/
def stat1 (fs : FS) (p : FPath) : Option Node := statN fs 40 p

/-- Modelled from the spec: `os::stat::isdir` (following links). -/
def statIsDir (fs : FS) (p : FPath) : Bool := stat1 fs p = some Node.dir

/-- Modelled from the spec: `os::stat::islink` (lstat: never follows). -/
def isLinkO : Option Node → Bool
  | some (Node.link _) => true
  | _ => false

def isDirN : Node → Bool
  | Node.dir => true
  | _ => false

def isFileN : Node → Bool
  | Node.file _ => true
  | _ => false

theorem stat1_not_link (fs : FS) (p : FPath)
    (h : ∀ t, lookup fs p ≠ some (Node.link t)) : stat1 fs p = lookup fs p := by
  unfold stat1 statN
  cases hl : lookup fs p with
  | none => simp
  | some n =>
    cases n with
    | dir => simp
    | file c => simp
    | link t => exact absurd hl (h t)

/-- The basename of a relative path (the `fts_name` of the entry). -/
def bname (p : FPath) : String := p.getLastD ""

/-- The docker whiteout name constant `docker::spec::WHITEOUT_PREFIX`. -/
def whMark : String := ".wh."

/-- The docker opaque-whiteout constant `docker::spec::WHITEOUT_OPAQUE_PREFIX`. -/
def whOpq : String := ".wh..wh..opq"

/-- `strings::startsWith` on names. -/
def strStarts (s pre : String) : Bool := lPre pre.data s.data

/-- `std::string::substr` from a character offset (the whiteout name is
pure ASCII, so byte and character offsets agree). -/
def strDropN (s : String) (n : Nat) : String := ⟨s.data.drop n⟩

/-- Whiteout detection of the fts loop: the entry is a regular file
(`FTS_F`) whose basename starts with the whiteout marker. -/
def entryWhiteout (rel : FPath) (node : Node) : Bool :=
  isFileN node && strStarts (bname rel) whMark

/-- The rootfs path deleted by a whiteout entry: the containing directory
for the opaque marker, otherwise the sibling with the marker stripped
(`strlen(WHITEOUT_PREFIX) = 4`).  `Path::dirname` of a one-component
path is `.`, which `path::join` then collapses inside rootfs, so the
containing directory is modelled directly as `rel.dropLast`. -/
def whTargetPath (rootfs rel : FPath) : FPath :=
  if bname rel = whOpq then rootfs ++ rel.dropLast
  else rootfs ++ rel.dropLast ++ [strDropN (bname rel) 4]

/-- The `removePath` decision of one iteration of the fts loop of
`CopyBackendProcess::_provision` (and, identically, of the Windows
`traverse`): a whiteout entry proposes its deletion target; then, if the
rootfs path exists (stat), a directory/non-directory kind change or a
symbolic link at the rootfs path overrides the proposal with the rootfs
path itself. -/
def entryRemove (fs : FS) (rootfs rel : FPath) (node : Node) : Option FPath :=
  let rp := rootfs ++ rel
  let r0 : Option FPath :=
    if entryWhiteout rel node then some (whTargetPath rootfs rel) else none
  if (stat1 fs rp).isSome then
    if statIsDir fs rp ≠ isDirN node then some rp
    else if isLinkO (lookup fs rp) then some rp
    else r0
  else r0

/-- The guarded removal of `_provision`: skip when the path no longer
exists; remove the subtree when it is a directory (stat), else unlink. -/
def doRemove (fs : FS) (p : FPath) : FS :=
  if (stat1 fs p).isSome then
    if statIsDir fs p then removeTree p fs else removeExact p fs
  else fs

/-- Events of one layer pass, used to state the phase-ordering claims. -/
inductive Ev where
  | scan (rel : FPath) : Ev
  | removeAt (p : FPath) : Ev
  | copy : Ev
  | unlinkWh (p : FPath) : Ev
deriving DecidableEq, Repr

/-- State threaded through the fts scan: the recorded whiteout marker
paths (rootfs-absolute) and the filesystem, which the POSIX loop mutates
in place. -/
structure ScanSt where
  whiteouts : List FPath
  fs : FS
deriving DecidableEq, Repr

/-- One iteration of the POSIX fts loop: record the whiteout marker,
decide the removal target, and remove it immediately (the POSIX variant
interleaves removals with the walk). -/
def scanStepT (rootfs : FPath) (st : ScanSt) (ent : FPath × Node) :
    ScanSt × List Ev :=
  let ws :=
    if entryWhiteout ent.1 ent.2 then st.whiteouts ++ [rootfs ++ ent.1]
    else st.whiteouts
  match entryRemove st.fs rootfs ent.1 ent.2 with
  | none => (⟨ws, st.fs⟩, [Ev.scan ent.1])
  | some p =>
    if (stat1 st.fs p).isSome then
      (⟨ws, if statIsDir st.fs p then removeTree p st.fs else removeExact p st.fs⟩,
        [Ev.scan ent.1, Ev.removeAt p])
    else (⟨ws, st.fs⟩, [Ev.scan ent.1])

/-- The whole POSIX fts walk over one layer (entries in physical
preorder), with its event trace. -/
def scanLayer (rootfs : FPath) (layer : Layer) (fs : FS) : ScanSt × List Ev :=
  layer.foldl
    (fun acc ent =>
      let r := scanStepT rootfs acc.1 ent
      (r.1, acc.2 ++ r.2))
    (⟨[], fs⟩, [])

/-- The node a copied entry leaves at its destination. -/
def cpNode : Node → Node
  | Node.dir => Node.dir
  | n => n

/-- Modelled from the spec: one destination write of `cp -aT layer
rootfs` (spec section 4.2 phase 3: recursive, attributes preserved,
symbolic links copied as links, existing files of the same kind
overwritten).  Directories merge; a kind conflict is a copy error.  A
write onto an existing destination symlink is flagged as an error: the
real `cp` would write through the link, which the provisioning algorithm
is designed to rule out, so a successful modelled copy certifies that no
destination link was followed. -/
def cpStep (rootfs : FPath) (fs : FS) (ent : FPath × Node) : Except String FS :=
  let dst := rootfs ++ ent.1
  match ent.2, lookup fs dst with
  | Node.dir, some Node.dir => .ok fs
  | Node.dir, none => .ok (insertFS dst Node.dir fs)
  | Node.dir, some _ => .error "cp: cannot overwrite non-directory with directory"
  | Node.file c, none => .ok (insertFS dst (Node.file c) fs)
  | Node.file c, some (Node.file _) => .ok (insertFS dst (Node.file c) fs)
  | Node.file _, some (Node.link _) => .error "cp: would write through a symlink"
  | Node.file _, some Node.dir => .error "cp: cannot overwrite directory with file"
  | Node.link t, none => .ok (insertFS dst (Node.link t) fs)
  | Node.link t, some (Node.file _) => .ok (insertFS dst (Node.link t) fs)
  | Node.link t, some (Node.link _) => .ok (insertFS dst (Node.link t) fs)
  | Node.link _, some Node.dir => .error "cp: cannot overwrite directory with symlink"

/-- Modelled from the spec: `cp -aT layer rootfs`.  The destination is
created as a directory when missing, then every layer entry is copied to
the corresponding destination path (source preorder). -/
def cpMerge (rootfs : FPath) (layer : Layer) (fs : FS) : Except String FS := do
  let fs0 ←
    match lookup fs rootfs with
    | some Node.dir => pure fs
    | none => pure (insertFS rootfs Node.dir fs)
    | some _ => throw "cp: destination is not a directory"
  layer.foldlM (cpStep rootfs) fs0

/-- Outcome of a layer pass: resulting filesystem, optional first error
(the future chain aborts at the first failure), and the event trace of
the operations that were actually performed. -/
structure PassOut where
  fs : FS
  err : Option String
  evs : List Ev
deriving DecidableEq, Repr

/-- The post-copy whiteout cleanup: `os::rm` of every recorded marker
path, in order; a missing marker (or a directory, which unlink cannot
remove) is an error that aborts the chain. -/
def unlinkAllP : List FPath → FS → PassOut
  | [], fs => ⟨fs, none, []⟩
  | w :: ws, fs =>
    match lookup fs w with
    | some Node.dir => ⟨fs, some "Failed to remove whiteout file", []⟩
    | none => ⟨fs, some "Failed to remove whiteout file", []⟩
    | some _ =>
      let r := unlinkAllP ws (removeExact w fs)
      ⟨r.fs, r.err, Ev.unlinkWh w :: r.evs⟩

/-- One full POSIX `_provision` pass over a single layer: fts scan with
inline removals, then the `cp -aT` copy, then the whiteout cleanup. -/
def layerPassFull (rootfs : FPath) (layer : Layer) (fs : FS) : PassOut :=
  match cpMerge rootfs layer (scanLayer rootfs layer fs).1.fs with
  | .error e => ⟨(scanLayer rootfs layer fs).1.fs, some e, (scanLayer rootfs layer fs).2⟩
  | .ok fs1 =>
    ⟨(unlinkAllP (scanLayer rootfs layer fs).1.whiteouts fs1).fs,
      (unlinkAllP (scanLayer rootfs layer fs).1.whiteouts fs1).err,
      (scanLayer rootfs layer fs).2 ++ [Ev.copy] ++
        (unlinkAllP (scanLayer rootfs layer fs).1.whiteouts fs1).evs⟩

/-- Result of a whole provision call. -/
structure PRes where
  fs : FS
  err : Option String
deriving DecidableEq, Repr

/-- Sequential application of the layers, base first, aborting at the
first failing pass (the chained futures of `provision`). -/
def passLayers : List Layer → FPath → FS → PRes
  | [], _, fs => ⟨fs, none⟩
  | l :: ls, rootfs, fs =>
    match (layerPassFull rootfs l fs).err with
    | some e => ⟨(layerPassFull rootfs l fs).fs, some e⟩
    | none => passLayers ls rootfs (layerPassFull rootfs l fs).fs

/-- Modelled from the spec: one step of the recursive `os::mkdir`: an
existing directory is kept, a missing one is created, anything else is
an error.  (The stout recursive mkdir tolerates EEXIST blindly, which on
a non-directory leads to a later failure of the pass; the model surfaces
the error at the mkdir itself.) -/
def mkdirStep (fs : FS) (q : FPath) : Except String FS :=
  match lookup fs q with
  | some Node.dir => .ok fs
  | none => .ok (insertFS q Node.dir fs)
  | some _ => .error "Failed to create rootfs directory"

/-- The nonempty ancestor chain of a path, shortest first (the token
loop of the recursive `os::mkdir`). -/
def ancList (p : FPath) : List FPath :=
  (List.range p.length).map (fun i => p.take (i + 1))

/-- Recursive `os::mkdir` of the rootfs. -/
def mkdirRec (p : FPath) (fs : FS) : Except String FS :=
  (ancList p).foldlM mkdirStep fs

/-- `CopyBackendProcess::provision`: reject an empty layer stack, reject
an existing rootfs, create the rootfs directory, then apply each layer
in order. -/
def cbProvision (layers : List Layer) (rootfs : FPath) (fs : FS) : PRes :=
  if layers.isEmpty then ⟨fs, some "No filesystem layers provided"⟩
  else if (stat1 fs rootfs).isSome then ⟨fs, some "Rootfs is already provisioned"⟩
  else
    match mkdirRec rootfs fs with
    | .error e => ⟨fs, some e⟩
    | .ok fs1 => passLayers layers rootfs fs1

/-- `CopyBackend::provision`: the dispatch forwards only the layers and
the rootfs to the process; the backend directory argument is dropped. -/
def copyBackendProvision (layers : List Layer) (rootfs : FPath)
    (backendDir : FPath) (fs : FS) : PRes :=
  cbProvision layers rootfs fs

/-- Modelled from the spec: the POSIX `CopyBackendProcess::destroy`
spawns `rm -rf rootfs`; `rm -f` removes the subtree and succeeds (exit
status zero) even when the operand does not exist. -/
def cbDestroyPosix (rootfs : FPath) (fs : FS) : FS × Except String Bool :=
  (removeTree rootfs fs, .ok true)

/-- Modelled from the spec: the Windows `CopyBackendProcess::destroy`
calls the recursive `os::rmdir(rootfs)` (native recursive delete), which
fails when the rootfs directory does not exist. -/
def cbDestroyWin (rootfs : FPath) (fs : FS) : FS × Except String Bool :=
  match lookup fs rootfs with
  | some Node.dir => (removeTree rootfs fs, .ok true)
  | _ => (fs, .error "Failed to destroy rootfs")

/-- `CopyBackend::destroy`, POSIX build: dispatch drops the backend
directory. -/
def copyBackendDestroyP (rootfs backendDir : FPath) (fs : FS) :
    FS × Except String Bool :=
  cbDestroyPosix rootfs fs

/-- `CopyBackend::destroy`, Windows build: dispatch drops the backend
directory. -/
def copyBackendDestroyW (rootfs backendDir : FPath) (fs : FS) :
    FS × Except String Bool :=
  cbDestroyWin rootfs fs

/-! The Windows layer backend (`wclayer.cpp`).  Its work is carried out
by the external `wclayer` tool, so the model records the exact command
sequence the backend issues; the tool results for `destroy` are inputs
(the tool itself is outside the repository). -/

/-- A `wclayer` tool invocation. -/
inductive WCmd where
  | imp (dir tar : FPath) (parents : List FPath) : WCmd
  | create (scratch : FPath) (rlayers : List FPath) : WCmd
  | mount (scratch : FPath) (rlayers : List FPath) : WCmd
  | unmount (dir : FPath) : WCmd
  | remove (dir : FPath) : WCmd
deriving DecidableEq, Repr

/-- The numeric per-layer directories `rootfs/1 .. rootfs/n`
(`path::join(rootfs, std::to_string(layerId++))`). -/
def numericDirs (rootfs : FPath) (n : Nat) : List FPath :=
  (List.range n).map (fun k => rootfs ++ [Nat.repr (k + 1)])

/-- The chained `wclayer_import` calls of `WclayerBackendProcess::
provision`.  In the source, `layerRootfs` starts at `rootfsPaths.rend() -
1` — the reverse iterator denoting the FIRST element `rootfs/1` — while
`tar` starts at `layers.begin()`, the base tarball; each further step
decrements the reverse iterator (moving to the next numeric directory)
and passes `vector<Path>(layerRootfs + 1, rootfsPaths.rend())`, which is
the already-filled lower numeric directories in nearest-first order,
i.e. the reverse of the first k elements. -/
def importChain (layers : List FPath) (rootfs : FPath) : List WCmd :=
  let rps := numericDirs rootfs layers.length
  (List.range layers.length).map
    (fun k =>
      WCmd.imp (rps.getD k []) ((layers.getD k []) ++ ["tar"]) ((rps.take k).reverse))

/-- Result of a wclayer provision: the filesystem after the directory
creation the backend itself performs, the first error if any, and the
`wclayer` commands issued (their effects live in the external layer
store). -/
structure WRes where
  fs : FS
  err : Option String
  cmds : List WCmd
deriving DecidableEq, Repr

/-- `WclayerBackendProcess::provision`: reject an empty stack, create
the rootfs directory (the recursive `os::mkdir` succeeds when the
directory already exists — there is no AlreadyProvisioned check), then
issue the import chain followed by `wclayer create` and `wclayer mount`
on the reversed numeric directories (base last) with the scratch
directory `backendDir/scratch/basename(rootfs)`. -/
def wclayerProvision (layers : List FPath) (rootfs backendDir : FPath)
    (fs : FS) : WRes :=
  if layers.isEmpty then ⟨fs, some "No filesystem layer provided", []⟩
  else
    match mkdirRec rootfs fs with
    | .error e => ⟨fs, some e, []⟩
    | .ok fs1 =>
      let rps := numericDirs rootfs layers.length
      let scratch := backendDir ++ ["scratch", bname rootfs]
      ⟨fs1, none,
        importChain layers rootfs ++
          [WCmd.create scratch rps.reverse, WCmd.mount scratch rps.reverse]⟩

/-- `WclayerBackendProcess::destroy`: `wclayer unmount scratch` then
`wclayer remove scratch` then `wclayer remove rootfs`, chained with
`.then`, so a failure aborts the chain (no logging, no continuation);
`true` is produced only after all three succeed.  The three tool results
are inputs; the output is the list of commands actually issued and the
final result. -/
def wclayerDestroy (rootfs backendDir : FPath)
    (unmountRes rmScratchRes rmRootfsRes : Except String Unit) :
    List WCmd × Except String Bool :=
  let scratch := backendDir ++ ["scratch", bname rootfs]
  match unmountRes with
  | .error e => ([WCmd.unmount scratch], .error e)
  | .ok _ =>
    match rmScratchRes with
    | .error e => ([WCmd.unmount scratch, WCmd.remove scratch], .error e)
    | .ok _ =>
      match rmRootfsRes with
      | .error e =>
        ([WCmd.unmount scratch, WCmd.remove scratch, WCmd.remove rootfs], .error e)
      | .ok _ =>
        ([WCmd.unmount scratch, WCmd.remove scratch, WCmd.remove rootfs], .ok true)

/-! The Windows variant of the Copy backend (`_provision` under
`__WINDOWS__` and `traverse`).  The recursive `traverse` collects the
whiteouts and removal paths over the unmodified filesystem; the removals
are performed afterwards, then `std::experimental::filesystem::copy`,
then the whiteout cleanup.  The recursion visits entries in the same
physical preorder as the flat layer listing. -/

/-- One visited entry of `traverse`: identical whiteout and removal
logic to the POSIX loop (`entryRemove`), but removal paths are queued in
`removePaths` instead of being removed; nothing mutates during the walk.
(`traverse` computes directory-ness with `filesystem::is_directory`,
which dereferences a source symlink; for layers whose entries are not
links to directories this agrees with the physical kind used here.) -/
def wScanStep (rootfs : FPath) (fs : FS)
    (acc : (List FPath × List FPath) × List Ev) (ent : FPath × Node) :
    (List FPath × List FPath) × List Ev :=
  let ws :=
    if entryWhiteout ent.1 ent.2 then acc.1.1 ++ [rootfs ++ ent.1] else acc.1.1
  let rps :=
    match entryRemove fs rootfs ent.1 ent.2 with
    | some p => acc.1.2 ++ [p]
    | none => acc.1.2
  ((ws, rps), acc.2 ++ [Ev.scan ent.1])

/-- The full `traverse` walk of one layer. -/
def wScanLayer (rootfs : FPath) (layer : Layer) (fs : FS) :
    (List FPath × List FPath) × List Ev :=
  layer.foldl (wScanStep rootfs fs) (([], []), [])

/-- The removal loop that follows the walk: each queued path is removed
if it still exists (subtree for a directory, unlink otherwise). -/
def wRemoveAll : List FPath → FS → FS × List Ev
  | [], fs => (fs, [])
  | p :: ps, fs =>
    if (stat1 fs p).isSome then
      let fs1 := if statIsDir fs p then removeTree p fs else removeExact p fs
      let r := wRemoveAll ps fs1
      (r.1, Ev.removeAt p :: r.2)
    else wRemoveAll ps fs

/-- Modelled from the spec: `std::experimental::filesystem::copy(layer,
rootfs)` with default `copy_options::none`.  Per the standard algorithm,
the top-level call copies the directory and iterates its entries with an
internal in-recursive-copy flag; without `copy_options::recursive` the
nested call does nothing for a subdirectory, so only the top-level
regular files are copied (a subdirectory is not even created), a
`copy_file` onto an existing destination is an error, and a source
symlink is dereferenced by `status`. -/
def wCopy (rootfs : FPath) (layer : Layer) (fs : FS) : Except String FS :=
  layer.foldlM
    (fun fs ent =>
      if ent.1.length = 1 then
        match ent.2 with
        | Node.dir => .ok fs
        | Node.file c =>
          match lookup fs (rootfs ++ ent.1) with
          | none => .ok (insertFS (rootfs ++ ent.1) (Node.file c) fs)
          | some Node.dir =>
            match lookup fs (rootfs ++ ent.1 ++ [bname ent.1]) with
            | none => .ok (insertFS (rootfs ++ ent.1 ++ [bname ent.1]) (Node.file c) fs)
            | some _ => .error "copy_file: destination exists"
          | some _ => .error "copy_file: destination exists"
        | Node.link t =>
          match stat1 fs t with
          | some (Node.file c) =>
            match lookup fs (rootfs ++ ent.1) with
            | none => .ok (insertFS (rootfs ++ ent.1) (Node.file c) fs)
            | some _ => .error "copy_file: destination exists"
          | some Node.dir => .ok fs
          | _ => .error "copy: cannot stat symlink target"
      else .ok fs)
    fs

/-- One full Windows `_provision` pass over a single layer: traverse
(collect only), then the queued removals, then the non-recursive copy,
then the whiteout cleanup. -/
def wLayerPassFull (rootfs : FPath) (layer : Layer) (fs : FS) : PassOut :=
  match wCopy rootfs layer (wRemoveAll (wScanLayer rootfs layer fs).1.2 fs).1 with
  | .error e =>
    ⟨(wRemoveAll (wScanLayer rootfs layer fs).1.2 fs).1, some e,
      (wScanLayer rootfs layer fs).2 ++ (wRemoveAll (wScanLayer rootfs layer fs).1.2 fs).2⟩
  | .ok fs1 =>
    ⟨(unlinkAllP (wScanLayer rootfs layer fs).1.1 fs1).fs,
      (unlinkAllP (wScanLayer rootfs layer fs).1.1 fs1).err,
      (wScanLayer rootfs layer fs).2 ++ (wRemoveAll (wScanLayer rootfs layer fs).1.2 fs).2 ++
        [Ev.copy] ++ (unlinkAllP (wScanLayer rootfs layer fs).1.1 fs1).evs⟩

/-! Trace-shape predicates for the phase-ordering claim. -/

/-- Phase rank of an event: scan before removal before copy before
whiteout cleanup. -/
def evRank : Ev → Nat
  | Ev.scan _ => 0
  | Ev.removeAt _ => 1
  | Ev.copy => 2
  | Ev.unlinkWh _ => 3

/-- Nondecreasing phase ranks from a starting rank. -/
def chainOK : Nat → List Ev → Bool
  | _, [] => true
  | r, e :: es => if evRank e < r then false else chainOK (evRank e) es

/-- A trace is phased when its events occur in nondecreasing phase
order: all scans, then all removals, then the copy, then the cleanup. -/
def phasedOK (t : List Ev) : Bool := chainOK 0 t

/-- Trailing whiteout-cleanup events only. -/
def tailUnlinks : List Ev → Bool
  | [] => true
  | Ev.unlinkWh _ :: es => tailUnlinks es
  | _ => false

/-- The shape the POSIX pass actually has: scan events with each removal
immediately after the scan of the entry that triggered it, then
optionally the copy followed by cleanup events. -/
def posixTraceOK : List Ev → Bool
  | [] => true
  | Ev.scan _ :: Ev.removeAt _ :: es => posixTraceOK es
  | Ev.scan _ :: es => posixTraceOK es
  | Ev.copy :: es => tailUnlinks es
  | _ => false

/-! Path and thinning lemmas. -/

theorem lPre_trans {α : Type} [DecidableEq α] {a b c : List α}
    (h1 : lPre a b = true) (h2 : lPre b c = true) : lPre a c = true := by
  obtain ⟨s, hs⟩ := (lPre_iff a b).mp h1
  obtain ⟨t, ht⟩ := (lPre_iff b c).mp h2
  exact (lPre_iff a c).mpr ⟨s ++ t, by rw [ht, hs, List.append_assoc]⟩

theorem lPre_take {α : Type} [DecidableEq α] (p : List α) (i : Nat) :
    lPre (p.take i) p = true :=
  (lPre_iff _ _).mpr ⟨p.drop i, (List.take_append_drop i p).symm⟩

theorem append_eq_self_iff (a b : FPath) : a ++ b = a ↔ b = [] := by
  constructor
  · intro h
    have h2 : a ++ b = a ++ [] := by simpa using h
    exact List.append_cancel_left h2
  · intro h
    simp [h]

/-- A filesystem obtained from another purely by deletions: every path
either vanished or kept its binding. -/
def thinned (fs' fs : FS) : Prop :=
  ∀ q, lookup fs' q = none ∨ lookup fs' q = lookup fs q

theorem thinned_refl (fs : FS) : thinned fs fs := fun _ => Or.inr rfl

theorem thinned_trans {a b c : FS} (h1 : thinned a b) (h2 : thinned b c) :
    thinned a c := by
  intro q
  rcases h1 q with h | h
  · exact Or.inl h
  · rcases h2 q with h2q | h2q
    · exact Or.inl (h.trans h2q)
    · exact Or.inr (h.trans h2q)

theorem thinned_removeExact (p : FPath) (fs : FS) : thinned (removeExact p fs) fs := by
  intro q
  rw [lookup_removeExact]
  by_cases h : q = p
  · simp [h]
  · simp [h]

theorem thinned_removeTree (p : FPath) (fs : FS) : thinned (removeTree p fs) fs := by
  intro q
  rw [lookup_removeTree]
  by_cases h : lPre p q = true
  · simp [h]
  · simp [h]

theorem thinned_doRemove (fs : FS) (p : FPath) : thinned (doRemove fs p) fs := by
  unfold doRemove
  by_cases h1 : (stat1 fs p).isSome
  · simp only [h1, if_true]
    by_cases h2 : statIsDir fs p
    · simpa [h2] using thinned_removeTree p fs
    · simpa [h2] using thinned_removeExact p fs
  · simpa [h1] using thinned_refl fs

/-- The filesystem part of a scan step is either unchanged or one of the
two guarded removals; in every case it is a pure deletion. -/
theorem scanStepT_fs_cases (rootfs : FPath) (st : ScanSt) (ent : FPath × Node) :
    (scanStepT rootfs st ent).1.fs = st.fs ∨
      ∃ p, entryRemove st.fs rootfs ent.1 ent.2 = some p ∧
        (scanStepT rootfs st ent).1.fs = doRemove st.fs p := by
  unfold scanStepT
  cases h : entryRemove st.fs rootfs ent.1 ent.2 with
  | none => exact Or.inl rfl
  | some p =>
    refine Or.inr ⟨p, rfl, ?_⟩
    unfold doRemove
    by_cases h1 : (stat1 st.fs p).isSome
    · simp [h1]
    · simp [h1]

theorem thinned_scanStepT (rootfs : FPath) (st : ScanSt) (ent : FPath × Node) :
    thinned (scanStepT rootfs st ent).1.fs st.fs := by
  rcases scanStepT_fs_cases rootfs st ent with h | ⟨p, _, h⟩
  · rw [h]
    exact thinned_refl _
  · rw [h]
    exact thinned_doRemove st.fs p

/-- Every removal target proposed by the scan lies inside the rootfs. -/
theorem entryRemove_under (fs : FS) (rootfs rel : FPath) (node : Node) (p : FPath)
    (h : entryRemove fs rootfs rel node = some p) : lPre rootfs p = true := by
  simp only [entryRemove] at h
  have hr0 : ∀ p0, (if entryWhiteout rel node = true then some (whTargetPath rootfs rel)
      else none) = some p0 → lPre rootfs p0 = true := by
    intro p0 h0
    by_cases hw : entryWhiteout rel node = true
    · rw [if_pos hw] at h0
      injection h0 with h0
      subst h0
      unfold whTargetPath
      by_cases ho : bname rel = whOpq
      · rw [if_pos ho]
        exact lPre_append rootfs rel.dropLast
      · rw [if_neg ho, List.append_assoc]
        exact lPre_append rootfs _
    · rw [if_neg hw] at h0
      cases h0
  by_cases he : (stat1 fs (rootfs ++ rel)).isSome = true
  · rw [if_pos he] at h
    by_cases h1 : statIsDir fs (rootfs ++ rel) ≠ isDirN node
    · rw [if_pos h1] at h
      injection h with h
      subst h
      exact lPre_append rootfs rel
    · rw [if_neg h1] at h
      by_cases h2 : isLinkO (lookup fs (rootfs ++ rel)) = true
      · rw [if_pos h2] at h
        injection h with h
        subst h
        exact lPre_append rootfs rel
      · rw [if_neg h2] at h
        exact hr0 p h
  · rw [if_neg he] at h
    exact hr0 p h

/-- Deletions performed by a scan step stay inside the rootfs. -/
theorem scanStepT_frame (rootfs : FPath) (st : ScanSt) (ent : FPath × Node)
    (q : FPath) (hq : lPre rootfs q = false) :
    lookup (scanStepT rootfs st ent).1.fs q = lookup st.fs q := by
  rcases scanStepT_fs_cases rootfs st ent with h | ⟨p, hp, h⟩
  · rw [h]
  · rw [h]
    have hup : lPre rootfs p = true := entryRemove_under st.fs rootfs ent.1 ent.2 p hp
    unfold doRemove
    by_cases h1 : (stat1 st.fs p).isSome = true
    · rw [if_pos h1]
      by_cases h2 : statIsDir st.fs p = true
      · rw [if_pos h2, lookup_removeTree]
        have hne : lPre p q ≠ true := by
          intro hpq
          rw [lPre_trans hup hpq] at hq
          exact Bool.true_eq_false.mp hq
        simp [hne]
      · rw [if_neg h2, lookup_removeExact]
        have hne : q ≠ p := by
          intro hqp
          subst hqp
          rw [hup] at hq
          exact Bool.true_eq_false.mp hq
        simp [hne]
    · rw [if_neg h1]

/-! Recursion form of the scan fold, for induction. -/

/-- State evolution of the fts walk, in recursion form. -/
def scanSts (rootfs : FPath) : Layer → ScanSt → ScanSt
  | [], st => st
  | e :: l, st => scanSts rootfs l (scanStepT rootfs st e).1

/-- Event trace of the fts walk, in recursion form. -/
def scanEvs (rootfs : FPath) : Layer → ScanSt → List Ev
  | [], _ => []
  | e :: l, st => (scanStepT rootfs st e).2 ++ scanEvs rootfs l (scanStepT rootfs st e).1

theorem scanLayer_acc (rootfs : FPath) (layer : Layer) :
    ∀ (st : ScanSt) (evs : List Ev),
      layer.foldl
        (fun acc ent =>
          let r := scanStepT rootfs acc.1 ent
          (r.1, acc.2 ++ r.2)) (st, evs) =
        (scanSts rootfs layer st, evs ++ scanEvs rootfs layer st) := by
  induction layer with
  | nil => intro st evs; simp [scanSts, scanEvs]
  | cons e l ih =>
    intro st evs
    simp only [List.foldl_cons, scanSts, scanEvs]
    rw [ih]
    simp [List.append_assoc]

theorem scanLayer_eq (rootfs : FPath) (layer : Layer) (fs : FS) :
    scanLayer rootfs layer fs =
      (scanSts rootfs layer ⟨[], fs⟩, scanEvs rootfs layer ⟨[], fs⟩) := by
  unfold scanLayer
  rw [scanLayer_acc]
  simp

theorem thinned_scanSts (rootfs : FPath) (layer : Layer) (st : ScanSt) :
    thinned (scanSts rootfs layer st).fs st.fs := by
  induction layer generalizing st with
  | nil => exact thinned_refl _
  | cons e l ih =>
    exact thinned_trans (ih (scanStepT rootfs st e).1) (thinned_scanStepT rootfs st e)

theorem scanSts_none (rootfs : FPath) (layer : Layer) (st : ScanSt) (q : FPath)
    (h : lookup st.fs q = none) : lookup (scanSts rootfs layer st).fs q = none := by
  rcases thinned_scanSts rootfs layer st q with h1 | h1
  · exact h1
  · rw [h1, h]

theorem scanSts_frame (rootfs : FPath) (layer : Layer) (st : ScanSt) (q : FPath)
    (hq : lPre rootfs q = false) :
    lookup (scanSts rootfs layer st).fs q = lookup st.fs q := by
  induction layer generalizing st with
  | nil => rfl
  | cons e l ih =>
    rw [scanSts, ih, scanStepT_frame rootfs st e q hq]

theorem scanSts_append (rootfs : FPath) (a b : Layer) (st : ScanSt) :
    scanSts rootfs (a ++ b) st = scanSts rootfs b (scanSts rootfs a st) := by
  induction a generalizing st with
  | nil => rfl
  | cons e l ih =>
    rw [List.cons_append, scanSts, scanSts, ih]

/-- The whiteout markers a layer records, independent of the filesystem:
every regular-file entry whose basename carries the whiteout marker, at
its rootfs-absolute path, in walk order. -/
def wsOf (rootfs : FPath) (layer : Layer) : List FPath :=
  (layer.filter (fun e => entryWhiteout e.1 e.2)).map (fun e => rootfs ++ e.1)

theorem scanStepT_ws (rootfs : FPath) (st : ScanSt) (ent : FPath × Node) :
    (scanStepT rootfs st ent).1.whiteouts =
      st.whiteouts ++ (if entryWhiteout ent.1 ent.2 then [rootfs ++ ent.1] else []) := by
  unfold scanStepT
  by_cases hw : entryWhiteout ent.1 ent.2 = true
  · cases h : entryRemove st.fs rootfs ent.1 ent.2 with
    | none => simp [hw]
    | some p =>
      by_cases h1 : (stat1 st.fs p).isSome = true
      · simp [hw, h1]
      · simp [hw, h1]
  · cases h : entryRemove st.fs rootfs ent.1 ent.2 with
    | none => simp [hw]
    | some p =>
      by_cases h1 : (stat1 st.fs p).isSome = true
      · simp [hw, h1]
      · simp [hw, h1]

theorem scanSts_ws (rootfs : FPath) (layer : Layer) (st : ScanSt) :
    (scanSts rootfs layer st).whiteouts = st.whiteouts ++ wsOf rootfs layer := by
  induction layer generalizing st with
  | nil => simp [scanSts, wsOf]
  | cons e l ih =>
    rw [scanSts, ih, scanStepT_ws]
    by_cases hw : entryWhiteout e.1 e.2 = true
    · simp [wsOf, hw, List.filter_cons, List.append_assoc]
    · simp [wsOf, hw, List.filter_cons]

/-! Trace-shape lemmas for the phase-ordering claim. -/

/-- Traces made of scan blocks: each block is a scan event, optionally
followed by the removal it triggered. -/
inductive ScanBlocks : List Ev → Prop where
  | nil : ScanBlocks []
  | plain (r : FPath) (rest : List Ev) :
      ScanBlocks rest → ScanBlocks (Ev.scan r :: rest)
  | withRem (r p : FPath) (rest : List Ev) :
      ScanBlocks rest → ScanBlocks (Ev.scan r :: Ev.removeAt p :: rest)

theorem scanStepT_evs (rootfs : FPath) (st : ScanSt) (ent : FPath × Node) :
    (scanStepT rootfs st ent).2 = [Ev.scan ent.1] ∨
      ∃ p, (scanStepT rootfs st ent).2 = [Ev.scan ent.1, Ev.removeAt p] := by
  unfold scanStepT
  cases h : entryRemove st.fs rootfs ent.1 ent.2 with
  | none => exact Or.inl rfl
  | some p =>
    by_cases h1 : (stat1 st.fs p).isSome = true
    · exact Or.inr ⟨p, by simp [h1]⟩
    · simp [h1]

theorem scanEvs_blocks (rootfs : FPath) (layer : Layer) (st : ScanSt) :
    ScanBlocks (scanEvs rootfs layer st) := by
  induction layer generalizing st with
  | nil => exact ScanBlocks.nil
  | cons e l ih =>
    rw [scanEvs]
    rcases scanStepT_evs rootfs st e with h | ⟨p, h⟩
    · rw [h]
      exact ScanBlocks.plain e.1 _ (ih _)
    · rw [h]
      exact ScanBlocks.withRem e.1 p _ (ih _)

theorem tailUnlinks_unlinkAllP (ws : List FPath) (fs : FS) :
    tailUnlinks (unlinkAllP ws fs).evs = true := by
  induction ws generalizing fs with
  | nil => rfl
  | cons w ws ih =>
    unfold unlinkAllP
    cases h : lookup fs w with
    | none => rfl
    | some n =>
      cases n with
      | dir => rfl
      | file c => simpa [tailUnlinks] using ih (removeExact w fs)
      | link t => simpa [tailUnlinks] using ih (removeExact w fs)

theorem posixTraceOK_scan_cons (r : FPath) (ys : List Ev)
    (h : ∀ p t, ys ≠ Ev.removeAt p :: t) :
    posixTraceOK (Ev.scan r :: ys) = posixTraceOK ys := by
  cases ys with
  | nil => rfl
  | cons e t =>
    cases e with
    | scan r2 => rfl
    | removeAt p => exact absurd rfl (h p t)
    | copy => rfl
    | unlinkWh p => rfl

theorem scanBlocks_heads (a : List Ev) (h : ScanBlocks a) :
    a = [] ∨ ∃ r t, a = Ev.scan r :: t := by
  cases h with
  | nil => exact Or.inl rfl
  | plain r rest _ => exact Or.inr ⟨r, rest, rfl⟩
  | withRem r p rest _ => exact Or.inr ⟨r, Ev.removeAt p :: rest, rfl⟩

theorem posixTraceOK_blocks_append (a : List Ev) (h : ScanBlocks a) :
    ∀ u : List Ev, tailUnlinks u = true →
      posixTraceOK (a ++ Ev.copy :: u) = true := by
  induction h with
  | nil =>
    intro u hu
    simpa [posixTraceOK] using hu
  | plain r rest hrest ih =>
    intro u hu
    have hne : ∀ p t, rest ++ Ev.copy :: u ≠ Ev.removeAt p :: t := by
      intro p t hc
      rcases scanBlocks_heads rest hrest with h0 | ⟨r2, t2, h0⟩
      · rw [h0] at hc
        simp at hc
      · rw [h0] at hc
        simp at hc
    rw [List.cons_append, posixTraceOK_scan_cons r _ hne]
    exact ih u hu
  | withRem r p rest hrest ih =>
    intro u hu
    have : posixTraceOK ((Ev.scan r :: Ev.removeAt p :: rest) ++ Ev.copy :: u) =
        posixTraceOK (rest ++ Ev.copy :: u) := rfl
    rw [this]
    exact ih u hu

theorem posixTraceOK_blocks (a : List Ev) (h : ScanBlocks a) :
    posixTraceOK a = true := by
  induction h with
  | nil => rfl
  | plain r rest hrest ih =>
    have hne : ∀ p t, rest ≠ Ev.removeAt p :: t := by
      intro p t hc
      rcases scanBlocks_heads rest hrest with h0 | ⟨r2, t2, h0⟩
      · rw [h0] at hc
        cases hc
      · rw [h0] at hc
        cases hc
    rw [posixTraceOK_scan_cons r rest hne]
    exact ih
  | withRem r p rest hrest ih => simpa [posixTraceOK] using ih

/-- The trace of every POSIX layer pass has the interleaved shape: scan
events with each performed removal directly after its triggering entry,
then (when the copy is reached) the copy and the cleanup events. -/
theorem posix_pass_traceOK (rootfs : FPath) (layer : Layer) (fs : FS) :
    posixTraceOK (layerPassFull rootfs layer fs).evs = true := by
  unfold layerPassFull
  have hevs : (scanLayer rootfs layer fs).2 = scanEvs rootfs layer ⟨[], fs⟩ := by
    rw [scanLayer_eq]
  have hblocks : ScanBlocks (scanLayer rootfs layer fs).2 := by
    rw [hevs]
    exact scanEvs_blocks rootfs layer _
  cases h : cpMerge rootfs layer (scanLayer rootfs layer fs).1.fs with
  | error e =>
    simp only
    exact posixTraceOK_blocks _ hblocks
  | ok fs1 =>
    simp only
    have h2 : (scanLayer rootfs layer fs).2 ++ [Ev.copy] ++
        (unlinkAllP (scanLayer rootfs layer fs).1.whiteouts fs1).evs =
        (scanLayer rootfs layer fs).2 ++ Ev.copy ::
          (unlinkAllP (scanLayer rootfs layer fs).1.whiteouts fs1).evs := by
      simp
    rw [h2]
    exact posixTraceOK_blocks_append _ hblocks _ (tailUnlinks_unlinkAllP _ _)

theorem chainOK_mono (r' r : Nat) (h : r' ≤ r) (m : List Ev)
    (hm : chainOK r m = true) : chainOK r' m = true := by
  cases m with
  | nil => rfl
  | cons e es =>
    unfold chainOK at hm ⊢
    by_cases h1 : evRank e < r
    · rw [if_pos h1] at hm
      cases hm
    · rw [if_neg h1] at hm
      have h2 : ¬ evRank e < r' := fun hlt => h1 (lt_of_lt_of_le hlt h)
      rw [if_neg h2]
      exact hm

theorem chainOK_const_append (k : Nat) (l : List Ev)
    (h1 : ∀ e ∈ l, evRank e = k) :
    ∀ (r : Nat) (m : List Ev), r ≤ k → chainOK k m = true →
      chainOK r (l ++ m) = true := by
  induction l with
  | nil =>
    intro r m hr hm
    exact chainOK_mono r k hr m hm
  | cons e l ih =>
    intro r m hr hm
    have he : evRank e = k := h1 e (List.mem_cons_self e l)
    have hl : ∀ e2 ∈ l, evRank e2 = k := fun e2 h2 => h1 e2 (List.mem_cons_of_mem e h2)
    rw [List.cons_append]
    unfold chainOK
    have h2 : ¬ evRank e < r := by
      rw [he]
      exact fun hlt => absurd (lt_of_le_of_lt hr hlt) (lt_irrefl r)
    rw [if_neg h2, he]
    exact ih hl k m (le_refl k) hm

theorem wScanLayer_acc (rootfs : FPath) (fs : FS) (layer : Layer) :
    ∀ acc : (List FPath × List FPath) × List Ev,
      (layer.foldl (wScanStep rootfs fs) acc).2 =
        acc.2 ++ layer.map (fun e => Ev.scan e.1) := by
  induction layer with
  | nil => intro acc; simp
  | cons e l ih =>
    intro acc
    rw [List.foldl_cons, ih]
    simp [wScanStep, List.append_assoc]

theorem wScanLayer_evs (rootfs : FPath) (layer : Layer) (fs : FS) :
    (wScanLayer rootfs layer fs).2 = layer.map (fun e => Ev.scan e.1) := by
  unfold wScanLayer
  rw [wScanLayer_acc]
  simp

theorem wRemoveAll_evs (ps : List FPath) (fs : FS) :
    ∀ e ∈ (wRemoveAll ps fs).2, evRank e = 1 := by
  induction ps generalizing fs with
  | nil => intro e he; cases he
  | cons p ps ih =>
    intro e he
    unfold wRemoveAll at he
    by_cases h1 : (stat1 fs p).isSome = true
    · rw [if_pos h1] at he
      simp only [List.mem_cons] at he
      rcases he with he | he
      · rw [he]; rfl
      · exact ih _ e he
    · rw [if_neg h1] at he
      exact ih fs e he

theorem unlinkAllP_evs (ws : List FPath) (fs : FS) :
    ∀ e ∈ (unlinkAllP ws fs).evs, evRank e = 3 := by
  induction ws generalizing fs with
  | nil => intro e he; cases he
  | cons w ws ih =>
    intro e he
    unfold unlinkAllP at he
    cases h : lookup fs w with
    | none => rw [h] at he; cases he
    | some n =>
      rw [h] at he
      cases n with
      | dir => cases he
      | file c =>
        simp only [List.mem_cons] at he
        rcases he with he | he
        · rw [he]; rfl
        · exact ih _ e he
      | link t =>
        simp only [List.mem_cons] at he
        rcases he with he | he
        · rw [he]; rfl
        · exact ih _ e he

/-- The trace of every Windows layer pass is fully phased: all scans,
then all removals, then the copy, then the cleanup. -/
theorem win_pass_phased (rootfs : FPath) (layer : Layer) (fs : FS) :
    phasedOK (wLayerPassFull rootfs layer fs).evs = true := by
  unfold wLayerPassFull phasedOK
  have hscan : ∀ e ∈ (wScanLayer rootfs layer fs).2, evRank e = 0 := by
    intro e he
    rw [wScanLayer_evs] at he
    obtain ⟨x, _, hx⟩ := List.mem_map.mp he
    rw [← hx]
    rfl
  cases h : wCopy rootfs layer (wRemoveAll (wScanLayer rootfs layer fs).1.2 fs).1 with
  | error e =>
    simp only
    refine chainOK_const_append 0 _ hscan 0 _ (le_refl 0) ?_
    have h1 := chainOK_const_append 1 _
      (wRemoveAll_evs (wScanLayer rootfs layer fs).1.2 fs) 0 [] (by omega) rfl
    simpa using h1
  | ok fs1 =>
    simp only
    have hassoc :
        (wScanLayer rootfs layer fs).2 ++ (wRemoveAll (wScanLayer rootfs layer fs).1.2 fs).2 ++
            [Ev.copy] ++ (unlinkAllP (wScanLayer rootfs layer fs).1.1 fs1).evs =
          (wScanLayer rootfs layer fs).2 ++
            ((wRemoveAll (wScanLayer rootfs layer fs).1.2 fs).2 ++
              (Ev.copy :: (unlinkAllP (wScanLayer rootfs layer fs).1.1 fs1).evs)) := by
      simp [List.append_assoc]
    rw [hassoc]
    refine chainOK_const_append 0 _ hscan 0 _ (le_refl 0) ?_
    refine chainOK_const_append 1 _ (wRemoveAll_evs _ _) 0 _ (by omega) ?_
    have hcopy : ∀ e ∈ [Ev.copy], evRank e = 2 := by
      intro e he
      simp only [List.mem_singleton] at he
      rw [he]
      rfl
    have h3 : Ev.copy :: (unlinkAllP (wScanLayer rootfs layer fs).1.1 fs1).evs =
        [Ev.copy] ++ (unlinkAllP (wScanLayer rootfs layer fs).1.1 fs1).evs := rfl
    rw [h3]
    refine chainOK_const_append 2 _ hcopy 1 _ (by omega) ?_
    have h4 := chainOK_const_append 3 _
      (unlinkAllP_evs (wScanLayer rootfs layer fs).1.1 fs1) 2 [] (by omega) rfl
    simpa using h4

/-! Lemmas about the wclayer import chain. -/

theorem numericDirs_length (rootfs : FPath) (n : Nat) :
    (numericDirs rootfs n).length = n := by
  simp [numericDirs]

theorem numericDirs_getD (rootfs : FPath) (n k : Nat) (hk : k < n) :
    (numericDirs rootfs n).getD k [] = rootfs ++ [Nat.repr (k + 1)] := by
  rw [List.getD_eq_getElem?_getD]
  unfold numericDirs
  rw [List.getElem?_map, List.getElem?_range hk]
  rfl

theorem numericDirs_take (rootfs : FPath) (n k : Nat) (hk : k ≤ n) :
    (numericDirs rootfs n).take k = numericDirs rootfs k := by
  unfold numericDirs
  rw [← List.map_take, List.take_range]
  rw [Nat.min_eq_left hk]

theorem importChain_length (layers : List FPath) (rootfs : FPath) :
    (importChain layers rootfs).length = layers.length := by
  simp [importChain]

theorem importChain_getElem (layers : List FPath) (rootfs : FPath) (k : Nat)
    (hk : k < layers.length) :
    (importChain layers rootfs)[k]? =
      some (WCmd.imp (rootfs ++ [Nat.repr (k + 1)]) ((layers.getD k []) ++ ["tar"])
        ((numericDirs rootfs k).reverse)) := by
  unfold importChain
  rw [List.getElem?_map, List.getElem?_range hk]
  simp only [Option.map_some']
  rw [numericDirs_getD rootfs layers.length k hk,
    numericDirs_take rootfs layers.length k (le_of_lt hk)]

/-- Claim C4 counterexample: with the two-layer stack `[base.tar,
app.tar]`, the first import — the one with the empty parent list,
targeting `rootfs/1` — carries the BASE tarball, not the top layer as
the claim asserts. -/
theorem claim_C4_counterexample :
    (wclayerProvision [["base"], ["app"]] ["r"] ["b"] []).cmds[0]? =
      some (WCmd.imp ["r", "1"] ["base", "tar"] []) ∧
    (wclayerProvision [["base"], ["app"]] ["r"] ["b"] []).cmds[0]? ≠
      some (WCmd.imp ["r", "1"] ["app", "tar"] []) ∧
    (wclayerProvision [["base"], ["app"]] ["r"] ["b"] []).cmds[1]? =
      some (WCmd.imp ["r", "2"] ["app", "tar"] [["r", "1"]]) := by decide

/-- Claim C4, amended: the Windows-layer backend imports layers
BOTTOM-UP.  The k-th import (0-based, base first) targets the numeric
directory `rootfs/(k+1)`, imports the k-th layer tarball, and passes the
already-imported LOWER numeric directories as parents in nearest-first
order (so the base import, k = 0, takes the empty parent list); with
layers `[base.tar, app.tar]`, `rootfs/1` receives the base layer and
`rootfs/2` the top layer. -/
theorem claim_C4_thm (layers : List FPath) (rootfs backendDir : FPath)
    (fs fs1 : FS) (hne : layers ≠ []) (hmk : mkdirRec rootfs fs = .ok fs1)
    (k : Nat) (hk : k < layers.length) :
    (wclayerProvision layers rootfs backendDir fs).cmds[k]? =
      some (WCmd.imp (rootfs ++ [Nat.repr (k + 1)]) ((layers.getD k []) ++ ["tar"])
        ((numericDirs rootfs k).reverse)) := by
  unfold wclayerProvision
  have h0 : ¬ (layers.isEmpty = true) := fun h => hne (List.isEmpty_iff.mp h)
  rw [if_neg h0, hmk]
  simp only
  have hlen : k < (importChain layers rootfs).length := by
    rw [importChain_length]
    exact hk
  rw [List.getElem?_append_left hlen]
  exact importChain_getElem layers rootfs k hk

theorem claim_C4_witness :
    (wclayerProvision [["base"], ["app"]] ["r"] ["b"] []).cmds[1]? =
      some (WCmd.imp (["r"] ++ [Nat.repr 2]) (["app"] ++ ["tar"])
        ((numericDirs ["r"] 1).reverse)) :=
  claim_C4_thm [["base"], ["app"]] ["r"] ["b"] [] [(["r"], Node.dir)]
    (by decide) (by decide) 1 (by decide)

/-- Claim C6 counterexample: when `wclayer unmount` fails, the
`.then`-chained destroy issues no further command (neither remove is
attempted), nothing is merely logged, and the overall result is the
unmount failure even though both removes would have succeeded. -/
theorem claim_C6_counterexample :
    wclayerDestroy ["r"] ["b"] (.error "unmount failed") (.ok ()) (.ok ()) =
      ([WCmd.unmount ["b", "scratch", "r"]], .error "unmount failed") ∧
    WCmd.remove ["b", "scratch", "r"] ∉
      (wclayerDestroy ["r"] ["b"] (.error "unmount failed") (.ok ()) (.ok ())).1 ∧
    WCmd.remove ["r"] ∉
      (wclayerDestroy ["r"] ["b"] (.error "unmount failed") (.ok ()) (.ok ())).1 ∧
    (wclayerDestroy ["r"] ["b"] (.error "unmount failed") (.ok ()) (.ok ())).2 ≠
      Except.ok true := by decide

/-- Claim C6, amended: a failure of `wclayer unmount` aborts the destroy
chain immediately — the two removes are not attempted and the unmount
failure is the overall result; when unmount succeeds, a remove failure
aborts likewise, and `true` is produced only when all three steps
succeed. -/
theorem claim_C6_thm :
    (∀ (rootfs backendDir : FPath) (e : String) (r2 r3 : Except String Unit),
      wclayerDestroy rootfs backendDir (.error e) r2 r3 =
        ([WCmd.unmount (backendDir ++ ["scratch", bname rootfs])], .error e)) ∧
    (∀ (rootfs backendDir : FPath) (e : String) (r3 : Except String Unit),
      wclayerDestroy rootfs backendDir (.ok ()) (.error e) r3 =
        ([WCmd.unmount (backendDir ++ ["scratch", bname rootfs]),
          WCmd.remove (backendDir ++ ["scratch", bname rootfs])], .error e)) ∧
    (∀ (rootfs backendDir : FPath) (e : String),
      wclayerDestroy rootfs backendDir (.ok ()) (.ok ()) (.error e) =
        ([WCmd.unmount (backendDir ++ ["scratch", bname rootfs]),
          WCmd.remove (backendDir ++ ["scratch", bname rootfs]),
          WCmd.remove rootfs], .error e)) ∧
    (∀ (rootfs backendDir : FPath),
      wclayerDestroy rootfs backendDir (.ok ()) (.ok ()) (.ok ()) =
        ([WCmd.unmount (backendDir ++ ["scratch", bname rootfs]),
          WCmd.remove (backendDir ++ ["scratch", bname rootfs]),
          WCmd.remove rootfs], .ok true)) :=
  ⟨fun _ _ _ _ _ => rfl, fun _ _ _ _ => rfl, fun _ _ _ => rfl, fun _ _ => rfl⟩

/-- Claim C8: on the layer containing directory `d` with file `d/f`,
the POSIX copy (`cp -aT`) materializes `rootfs/d/f`, while the Windows
variant invokes `std::experimental::filesystem::copy` with default
options, which does not recurse: neither `rootfs/d` nor `rootfs/d/f`
exists after a (successful) Windows copy. -/
theorem claim_C8_thm :
    (cpMerge ["r"] [(["d"], Node.dir), (["d", "f"], Node.file "x")]
        [(["r"], Node.dir)]).map (fun f => lookup f ["r", "d", "f"]) =
      Except.ok (some (Node.file "x")) ∧
    (wCopy ["r"] [(["d"], Node.dir), (["d", "f"], Node.file "x")]
        [(["r"], Node.dir)]).map (fun f => lookup f ["r", "d", "f"]) =
      Except.ok none ∧
    (wCopy ["r"] [(["d"], Node.dir), (["d", "f"], Node.file "x")]
        [(["r"], Node.dir)]).map (fun f => lookup f ["r", "d"]) =
      Except.ok none := by decide

/-- Claim C3 counterexample: with the rootfs directory already existing,
the Windows-layer provision does not fail with AlreadyProvisioned — its
recursive mkdir succeeds on the existing directory and the backend
proceeds to issue imports into it. -/
theorem claim_C3_counterexample :
    (stat1 [(["r"], Node.dir)] ["r"]).isSome = true ∧
    (wclayerProvision [["base"]] ["r"] ["b"] [(["r"], Node.dir)]).err = none ∧
    (wclayerProvision [["base"]] ["r"] ["b"] [(["r"], Node.dir)]).cmds ≠ [] := by decide

/-- Claim C3, amended: only the Copy backend checks for an existing
rootfs — it fails with the AlreadyProvisioned error and leaves the
filesystem untouched; the Windows-layer backend performs no such check:
its recursive mkdir succeeds on an existing directory and provisioning
proceeds (imports, create, mount are issued). -/
theorem claim_C3_thm :
    (∀ (layers : List Layer) (rootfs : FPath) (fs : FS),
      layers ≠ [] → (stat1 fs rootfs).isSome = true →
        cbProvision layers rootfs fs = ⟨fs, some "Rootfs is already provisioned"⟩) ∧
    (∀ (layers : List FPath) (rootfs backendDir : FPath) (fs fs1 : FS),
      layers ≠ [] → mkdirRec rootfs fs = .ok fs1 →
        (wclayerProvision layers rootfs backendDir fs).err = none ∧
        (wclayerProvision layers rootfs backendDir fs).fs = fs1 ∧
        (wclayerProvision layers rootfs backendDir fs).cmds ≠ []) := by
  constructor
  · intro layers rootfs fs hne hex
    unfold cbProvision
    have h0 : ¬ (layers.isEmpty = true) := fun h => hne (List.isEmpty_iff.mp h)
    rw [if_neg h0, if_pos hex]
  · intro layers rootfs backendDir fs fs1 hne hmk
    unfold wclayerProvision
    have h0 : ¬ (layers.isEmpty = true) := fun h => hne (List.isEmpty_iff.mp h)
    rw [if_neg h0, hmk]
    refine ⟨rfl, rfl, ?_⟩
    intro hc
    rw [List.append_eq_nil] at hc
    cases hc.2

theorem claim_C3_witness :
    cbProvision [[(["a"], Node.file "A")]] ["r"] [(["r"], Node.dir)] =
      ⟨[(["r"], Node.dir)], some "Rootfs is already provisioned"⟩ ∧
    (wclayerProvision [["base"]] ["r"] ["b"] [(["r"], Node.dir)]).err = none :=
  ⟨claim_C3_thm.1 [[(["a"], Node.file "A")]] ["r"] [(["r"], Node.dir)]
      (by decide) (by decide),
    (claim_C3_thm.2 [["base"]] ["r"] ["b"] [(["r"], Node.dir)] [(["r"], Node.dir)]
      (by decide) (by decide)).1⟩

/-- Claim C5 counterexample: the POSIX Copy-backend destroy spawns `rm
-rf`, which exits successfully on a nonexistent rootfs, so destroy
resolves to true instead of failing. -/
theorem claim_C5_counterexample :
    lookup ([] : FS) ["r"] = none ∧
    (cbDestroyPosix ["r"] []).2 = Except.ok true := by decide

/-- Claim C5, amended: the Windows Copy-backend destroy fails on a
nonexistent rootfs, but the POSIX one always resolves true (`rm -rf`
succeeds on a missing operand); after a successful destroy of either
variant, nothing remains at or below the rootfs path. -/
theorem claim_C5_thm :
    (∀ (rootfs : FPath) (fs : FS), lookup fs rootfs = none →
      (cbDestroyWin rootfs fs).2 = Except.error "Failed to destroy rootfs") ∧
    (∀ (rootfs : FPath) (fs : FS), (cbDestroyPosix rootfs fs).2 = Except.ok true) ∧
    (∀ (rootfs : FPath) (fs : FS) (q : FPath), lPre rootfs q = true →
      lookup (cbDestroyPosix rootfs fs).1 q = none) ∧
    (∀ (rootfs : FPath) (fs : FS) (q : FPath), lPre rootfs q = true →
      (cbDestroyWin rootfs fs).2 = Except.ok true →
      lookup (cbDestroyWin rootfs fs).1 q = none) := by
  refine ⟨?_, fun _ _ => rfl, ?_, ?_⟩
  · intro rootfs fs h
    unfold cbDestroyWin
    rw [h]
  · intro rootfs fs q hq
    unfold cbDestroyPosix
    simp only
    rw [lookup_removeTree, if_pos hq]
  · intro rootfs fs q hq hok
    unfold cbDestroyWin at hok ⊢
    cases h : lookup fs rootfs with
    | none => rw [h] at hok; cases hok
    | some n =>
      cases n with
      | dir =>
        simp only
        rw [lookup_removeTree, if_pos hq]
      | file c => rw [h] at hok; cases hok
      | link t => rw [h] at hok; cases hok

theorem claim_C5_witness :
    (cbDestroyWin ["r"] []).2 = Except.error "Failed to destroy rootfs" ∧
    lookup (cbDestroyPosix ["r"] [(["r"], Node.dir), (["r", "a"], Node.file "A")]).1
      ["r", "a"] = none ∧
    lookup (cbDestroyWin ["r"] [(["r"], Node.dir), (["r", "a"], Node.file "A")]).1
      ["r"] = none :=
  ⟨claim_C5_thm.1 ["r"] [] rfl,
    claim_C5_thm.2.2.1 ["r"] [(["r"], Node.dir), (["r", "a"], Node.file "A")]
      ["r", "a"] (by decide),
    claim_C5_thm.2.2.2 ["r"] [(["r"], Node.dir), (["r", "a"], Node.file "A")]
      ["r"] (by decide) (by decide)⟩

/-- Claim C9 counterexample: a successful POSIX pass in which a removal
is performed between two scan events — the removal triggered by the
whiteout `d/.wh.f` precedes the scan of `d/z` — so the trace is not
phased as the claim requires. -/
theorem claim_C9_counterexample :
    (layerPassFull ["r"]
        [(["d"], Node.dir), (["d", ".wh.f"], Node.file ""), (["d", "z"], Node.file "z")]
        [(["r"], Node.dir), (["r", "d"], Node.dir), (["r", "d", "f"], Node.file "f")]).err
      = none ∧
    Ev.removeAt ["r", "d", "f"] ∈
      (layerPassFull ["r"]
        [(["d"], Node.dir), (["d", ".wh.f"], Node.file ""), (["d", "z"], Node.file "z")]
        [(["r"], Node.dir), (["r", "d"], Node.dir), (["r", "d", "f"], Node.file "f")]).evs ∧
    phasedOK
      (layerPassFull ["r"]
        [(["d"], Node.dir), (["d", ".wh.f"], Node.file ""), (["d", "z"], Node.file "z")]
        [(["r"], Node.dir), (["r", "d"], Node.dir), (["r", "d", "f"], Node.file "f")]).evs
      = false := by decide

/-- Claim C9, amended: the PHASE order scan, removals, copy, cleanup
holds as stated only for the Windows variant, whose traverse collects
removal paths and performs them afterwards in queue order; the POSIX
variant interleaves — each removal is performed immediately after the
scan of the entry that triggered it — and only the copy and the
post-copy whiteout cleanup are separate trailing phases in both
variants. -/
theorem claim_C9_thm :
    (∀ (rootfs : FPath) (layer : Layer) (fs : FS),
      posixTraceOK (layerPassFull rootfs layer fs).evs = true) ∧
    (∀ (rootfs : FPath) (layer : Layer) (fs : FS),
      phasedOK (wLayerPassFull rootfs layer fs).evs = true) :=
  ⟨posix_pass_traceOK, win_pass_phased⟩

/-! Frame lemmas: every write or deletion a provision performs targets
the rootfs subtree (plus, for mkdir, ancestors of the rootfs path). -/

theorem lPre_antisymm {α : Type} [DecidableEq α] {a b : List α}
    (h1 : lPre a b = true) (h2 : lPre b a = true) : a = b := by
  obtain ⟨s, hs⟩ := (lPre_iff a b).mp h1
  obtain ⟨t, ht⟩ := (lPre_iff b a).mp h2
  subst hs
  have hlen := congrArg List.length ht
  simp only [List.length_append] at hlen
  have hs0 : s.length = 0 := by omega
  rw [List.length_eq_zero.mp hs0]
  simp

theorem cpStep_frame (rootfs : FPath) (fs : FS) (ent : FPath × Node) (fs' : FS)
    (h : cpStep rootfs fs ent = .ok fs') (q : FPath) (hq : q ≠ rootfs ++ ent.1) :
    lookup fs' q = lookup fs q := by
  simp only [cpStep] at h
  split at h
  all_goals first
    | (exact Except.noConfusion h)
    | (injection h with h2; subst h2; rfl)
    | (injection h with h2; subst h2; rw [lookup_insertFS]; simp [hq])

theorem cpFold_frame (rootfs : FPath) (layer : Layer) :
    ∀ (fs fs' : FS), layer.foldlM (cpStep rootfs) fs = .ok fs' →
      ∀ q, (∀ ent ∈ layer, q ≠ rootfs ++ ent.1) →
        lookup fs' q = lookup fs q := by
  induction layer with
  | nil =>
    intro fs fs' h q _
    rw [List.foldlM_nil] at h
    injection h with h
    rw [h]
  | cons e l ih =>
    intro fs fs' h q hq
    rw [List.foldlM_cons] at h
    cases h1 : cpStep rootfs fs e with
    | error msg =>
      rw [h1] at h
      exact Except.noConfusion h
    | ok fs1 =>
      rw [h1] at h
      have hql : ∀ ent ∈ l, q ≠ rootfs ++ ent.1 :=
        fun ent hm => hq ent (List.mem_cons_of_mem e hm)
      rw [ih fs1 fs' h q hql]
      exact cpStep_frame rootfs fs e fs1 h1 q (hq e (List.mem_cons_self e l))

/-- Case analysis on the destination-directory handling of the copy. -/
theorem cpMerge_cases (rootfs : FPath) (layer : Layer) (fs : FS) :
    (lookup fs rootfs = some Node.dir ∧
      cpMerge rootfs layer fs = layer.foldlM (cpStep rootfs) fs) ∨
    (lookup fs rootfs = none ∧
      cpMerge rootfs layer fs =
        layer.foldlM (cpStep rootfs) (insertFS rootfs Node.dir fs)) ∨
    (cpMerge rootfs layer fs = .error "cp: destination is not a directory") := by
  cases hroot : lookup fs rootfs with
  | none =>
    refine Or.inr (Or.inl ⟨rfl, ?_⟩)
    unfold cpMerge
    rw [hroot]
    rfl
  | some n =>
    cases n with
    | dir =>
      refine Or.inl ⟨rfl, ?_⟩
      unfold cpMerge
      rw [hroot]
      rfl
    | file c =>
      refine Or.inr (Or.inr ?_)
      unfold cpMerge
      rw [hroot]
      rfl
    | link t =>
      refine Or.inr (Or.inr ?_)
      unfold cpMerge
      rw [hroot]
      rfl

theorem cpMerge_frame (rootfs : FPath) (layer : Layer) (fs fs' : FS)
    (h : cpMerge rootfs layer fs = .ok fs') (q : FPath)
    (hq : ∀ ent ∈ layer, q ≠ rootfs ++ ent.1) (hq0 : q ≠ rootfs) :
    lookup fs' q = lookup fs q := by
  rcases cpMerge_cases rootfs layer fs with ⟨_, heq⟩ | ⟨_, heq⟩ | heq
  · rw [heq] at h
    exact cpFold_frame rootfs layer fs fs' h q hq
  · rw [heq] at h
    rw [cpFold_frame rootfs layer _ fs' h q hq, lookup_insertFS]
    simp [hq0]
  · rw [heq] at h
    exact Except.noConfusion h

theorem unlinkAllP_frame (ws : List FPath) (fs : FS) (q : FPath)
    (hq : ∀ w ∈ ws, q ≠ w) :
    lookup (unlinkAllP ws fs).fs q = lookup fs q := by
  induction ws generalizing fs with
  | nil => rfl
  | cons w ws ih =>
    unfold unlinkAllP
    have hqw : q ≠ w := hq w (List.mem_cons_self w ws)
    have hqs : ∀ w2 ∈ ws, q ≠ w2 := fun w2 hm => hq w2 (List.mem_cons_of_mem w hm)
    cases hl : lookup fs w with
    | none => rfl
    | some n =>
      cases n with
      | dir => rfl
      | file c =>
        simp only
        rw [ih (removeExact w fs) hqs, lookup_removeExact]
        simp [hqw]
      | link t =>
        simp only
        rw [ih (removeExact w fs) hqs, lookup_removeExact]
        simp [hqw]

theorem mkdirStep_frame (fs : FS) (a : FPath) (fs' : FS)
    (h : mkdirStep fs a = .ok fs') (q : FPath) (hq : q ≠ a) :
    lookup fs' q = lookup fs q := by
  simp only [mkdirStep] at h
  split at h
  all_goals first
    | (exact Except.noConfusion h)
    | (injection h with h2; subst h2; rfl)
    | (injection h with h2; subst h2; rw [lookup_insertFS]; simp [hq])

theorem mkdirStep_sets (fs : FS) (a : FPath) (fs' : FS)
    (h : mkdirStep fs a = .ok fs') : lookup fs' a = some Node.dir := by
  simp only [mkdirStep] at h
  split at h
  · injection h with h2
    subst h2
    assumption
  · injection h with h2
    subst h2
    rw [lookup_insertFS]
    simp
  · cases h

theorem mkdirFold_frame (l : List FPath) :
    ∀ (fs fs' : FS), l.foldlM mkdirStep fs = .ok fs' →
      ∀ q, (∀ a ∈ l, q ≠ a) → lookup fs' q = lookup fs q := by
  induction l with
  | nil =>
    intro fs fs' h q _
    rw [List.foldlM_nil] at h
    injection h with h
    rw [h]
  | cons a l ih =>
    intro fs fs' h q hq
    rw [List.foldlM_cons] at h
    cases h1 : mkdirStep fs a with
    | error msg =>
      rw [h1] at h
      exact Except.noConfusion h
    | ok fs1 =>
      rw [h1] at h
      rw [ih fs1 fs' h q (fun a2 hm => hq a2 (List.mem_cons_of_mem a hm))]
      exact mkdirStep_frame fs a fs1 h1 q (hq a (List.mem_cons_self a l))

theorem mkdirFold_preserves_dir (l : List FPath) :
    ∀ (fs fs' : FS), l.foldlM mkdirStep fs = .ok fs' →
      ∀ q, lookup fs q = some Node.dir → lookup fs' q = some Node.dir := by
  induction l with
  | nil =>
    intro fs fs' h q hd
    rw [List.foldlM_nil] at h
    injection h with h
    rw [h] at hd
    exact hd
  | cons a l ih =>
    intro fs fs' h q hd
    rw [List.foldlM_cons] at h
    cases h1 : mkdirStep fs a with
    | error msg =>
      rw [h1] at h
      exact Except.noConfusion h
    | ok fs1 =>
      rw [h1] at h
      refine ih fs1 fs' h q ?_
      by_cases hqa : q = a
      · subst hqa
        exact mkdirStep_sets fs q fs1 h1
      · rw [mkdirStep_frame fs a fs1 h1 q hqa]
        exact hd

theorem mkdirFold_sets (l : List FPath) :
    ∀ (fs fs' : FS), l.foldlM mkdirStep fs = .ok fs' →
      ∀ a ∈ l, lookup fs' a = some Node.dir := by
  induction l with
  | nil =>
    intro fs fs' _ a ha
    cases ha
  | cons a0 l ih =>
    intro fs fs' h a ha
    rw [List.foldlM_cons] at h
    cases h1 : mkdirStep fs a0 with
    | error msg =>
      rw [h1] at h
      exact Except.noConfusion h
    | ok fs1 =>
      rw [h1] at h
      rcases List.mem_cons.mp ha with ha0 | hal
      · subst ha0
        exact mkdirFold_preserves_dir l fs1 fs' h a (mkdirStep_sets fs a fs1 h1)
      · exact ih fs1 fs' h a hal

/-- Every path the recursive mkdir touches is an ancestor chain element
of the created path. -/
theorem ancList_mem (p : FPath) (a : FPath) (ha : a ∈ ancList p) :
    lPre a p = true := by
  unfold ancList at ha
  obtain ⟨i, _, hi⟩ := List.mem_map.mp ha
  rw [← hi]
  exact lPre_take p (i + 1)

theorem mkdirRec_frame (p : FPath) (fs fs' : FS) (h : mkdirRec p fs = .ok fs')
    (q : FPath) (hq : lPre q p = false) : lookup fs' q = lookup fs q := by
  refine mkdirFold_frame (ancList p) fs fs' h q ?_
  intro a ha hqa
  subst hqa
  rw [ancList_mem p q ha] at hq
  exact Bool.true_eq_false.mp hq

theorem mkdirRec_root (p : FPath) (fs fs' : FS) (h : mkdirRec p fs = .ok fs')
    (hne : p ≠ []) : lookup fs' p = some Node.dir := by
  refine mkdirFold_sets (ancList p) fs fs' h p ?_
  unfold ancList
  refine List.mem_map.mpr ⟨p.length - 1, ?_, ?_⟩
  · refine List.mem_range.mpr ?_
    have : p.length ≠ 0 := fun h0 => hne (List.length_eq_zero.mp h0)
    omega
  · have : p.length - 1 + 1 = p.length := by
      have : p.length ≠ 0 := fun h0 => hne (List.length_eq_zero.mp h0)
      omega
    rw [this, List.take_length]

/-- A layer pass touches only paths inside the rootfs subtree. -/
theorem layerPassFull_frame (rootfs : FPath) (layer : Layer) (fs : FS)
    (q : FPath) (hq : lPre rootfs q = false) :
    lookup (layerPassFull rootfs layer fs).fs q = lookup fs q := by
  have hscan : lookup (scanLayer rootfs layer fs).1.fs q = lookup fs q := by
    rw [scanLayer_eq]
    exact scanSts_frame rootfs layer ⟨[], fs⟩ q hq
  have hqents : ∀ ent ∈ layer, q ≠ rootfs ++ ent.1 := by
    intro ent _ hc
    subst hc
    rw [lPre_append] at hq
    exact Bool.true_eq_false.mp hq
  have hq0 : q ≠ rootfs := by
    intro hc
    subst hc
    rw [lPre_refl] at hq
    exact Bool.true_eq_false.mp hq
  unfold layerPassFull
  cases h : cpMerge rootfs layer (scanLayer rootfs layer fs).1.fs with
  | error e => exact hscan
  | ok fs1 =>
    simp only
    have hws : ∀ w ∈ (scanLayer rootfs layer fs).1.whiteouts, q ≠ w := by
      intro w hw hc
      subst hc
      rw [scanLayer_eq] at hw
      simp only at hw
      rw [scanSts_ws] at hw
      simp only [List.nil_append] at hw
      unfold wsOf at hw
      obtain ⟨ent, _, hent⟩ := List.mem_map.mp hw
      rw [← hent] at hq
      rw [lPre_append] at hq
      exact Bool.true_eq_false.mp hq
    rw [unlinkAllP_frame _ fs1 q hws]
    rw [cpMerge_frame rootfs layer _ fs1 h q hqents hq0]
    exact hscan

theorem passLayers_frame (layers : List Layer) (rootfs : FPath) (fs : FS)
    (q : FPath) (hq : lPre rootfs q = false) :
    lookup (passLayers layers rootfs fs).fs q = lookup fs q := by
  induction layers generalizing fs with
  | nil => rfl
  | cons l ls ih =>
    unfold passLayers
    cases he : (layerPassFull rootfs l fs).err with
    | some e =>
      simp only
      exact layerPassFull_frame rootfs l fs q hq
    | none =>
      simp only
      rw [ih (layerPassFull rootfs l fs).fs]
      exact layerPassFull_frame rootfs l fs q hq

theorem cbProvision_frame (layers : List Layer) (rootfs : FPath) (fs : FS)
    (q : FPath) (hq1 : lPre rootfs q = false) (hq2 : lPre q rootfs = false) :
    lookup (cbProvision layers rootfs fs).fs q = lookup fs q := by
  unfold cbProvision
  by_cases h0 : layers.isEmpty = true
  · rw [if_pos h0]
  · rw [if_neg h0]
    by_cases h1 : (stat1 fs rootfs).isSome = true
    · rw [if_pos h1]
    · rw [if_neg h1]
      cases hmk : mkdirRec rootfs fs with
      | error e => rfl
      | ok fs1 =>
        simp only
        rw [passLayers_frame layers rootfs fs1 q hq1]
        exact mkdirRec_frame rootfs fs fs1 hmk q hq2

/-- Claim C10: the Copy backend ignores its backend-directory argument —
both provision and destroy dispatch without it, so their results are
identical for any two backend directories — and every path they create,
modify or delete lies inside the rootfs subtree (or, for mkdir, on the
rootfs ancestor chain), so nothing under a backend directory that is
disjoint from the rootfs path is read, created or modified. -/
theorem claim_C10_thm :
    (∀ (layers : List Layer) (rootfs b1 b2 : FPath) (fs : FS),
      copyBackendProvision layers rootfs b1 fs = copyBackendProvision layers rootfs b2 fs) ∧
    (∀ (rootfs b1 b2 : FPath) (fs : FS),
      copyBackendDestroyP rootfs b1 fs = copyBackendDestroyP rootfs b2 fs) ∧
    (∀ (rootfs b1 b2 : FPath) (fs : FS),
      copyBackendDestroyW rootfs b1 fs = copyBackendDestroyW rootfs b2 fs) ∧
    (∀ (layers : List Layer) (rootfs backendDir : FPath) (fs : FS) (q : FPath),
      lPre rootfs q = false → lPre q rootfs = false →
      lookup (copyBackendProvision layers rootfs backendDir fs).fs q = lookup fs q) ∧
    (∀ (rootfs backendDir : FPath) (fs : FS) (q : FPath), lPre rootfs q = false →
      lookup (copyBackendDestroyP rootfs backendDir fs).1 q = lookup fs q) ∧
    (∀ (rootfs backendDir : FPath) (fs : FS) (q : FPath), lPre rootfs q = false →
      lookup (copyBackendDestroyW rootfs backendDir fs).1 q = lookup fs q) := by
  refine ⟨fun _ _ _ _ _ => rfl, fun _ _ _ _ => rfl, fun _ _ _ _ => rfl, ?_, ?_, ?_⟩
  · intro layers rootfs backendDir fs q hq1 hq2
    exact cbProvision_frame layers rootfs fs q hq1 hq2
  · intro rootfs backendDir fs q hq
    unfold copyBackendDestroyP cbDestroyPosix
    simp only
    rw [lookup_removeTree, if_neg]
    rw [hq]
    exact Bool.false_ne_true
  · intro rootfs backendDir fs q hq
    unfold copyBackendDestroyW cbDestroyWin
    cases h : lookup fs rootfs with
    | none => rfl
    | some n =>
      cases n with
      | dir =>
        simp only
        rw [lookup_removeTree, if_neg]
        rw [hq]
        exact Bool.false_ne_true
      | file c => rfl
      | link t => rfl

/-! Additional path and stat helpers. -/

theorem lPre_append_left {α : Type} [DecidableEq α] (a b c : List α) :
    lPre (a ++ b) (a ++ c) = lPre b c := by
  induction a with
  | nil => rfl
  | cons x xs ih => simp [lPre, ih]

theorem lPre_length {α : Type} [DecidableEq α] {a b : List α}
    (h : lPre a b = true) : a.length ≤ b.length := by
  obtain ⟨s, hs⟩ := (lPre_iff a b).mp h
  subst hs
  simp

theorem getLastD_append_cons (a : FPath) (y : String) (ys : FPath) :
    ∀ d, (a ++ y :: ys).getLastD d = (y :: ys).getLastD d := by
  induction a with
  | nil => intro d; rfl
  | cons x xs ih =>
    intro d
    rw [List.cons_append, List.getLastD_cons, ih x, List.getLastD_cons,
      List.getLastD_cons]

theorem bname_append (a b : FPath) (hb : b ≠ []) :
    bname (a ++ b) = bname b := by
  cases b with
  | nil => exact absurd rfl hb
  | cons y ys => exact getLastD_append_cons a y ys ""

theorem stat1_of_none (fs : FS) (p : FPath) (h : lookup fs p = none) :
    stat1 fs p = none := by
  unfold stat1 statN
  rw [h]

theorem stat1_of_dir (fs : FS) (p : FPath) (h : lookup fs p = some Node.dir) :
    stat1 fs p = some Node.dir := by
  unfold stat1 statN
  rw [h]

theorem stat1_of_file (fs : FS) (p : FPath) (c : String)
    (h : lookup fs p = some (Node.file c)) :
    stat1 fs p = some (Node.file c) := by
  unfold stat1 statN
  rw [h]

theorem scanSts_fileOrNone (rootfs : FPath) (l : Layer) (st : ScanSt) (q : FPath)
    (h : lookup st.fs q = none ∨ ∃ c2, lookup st.fs q = some (Node.file c2)) :
    lookup (scanSts rootfs l st).fs q = none ∨
      ∃ c2, lookup (scanSts rootfs l st).fs q = some (Node.file c2) := by
  rcases thinned_scanSts rootfs l st q with h1 | h1
  · exact Or.inl h1
  · rw [h1]
    exact h

/-! Whiteout-target removal (claim C1): a non-opaque whiteout entry
deletes the stripped sibling from the rootfs during the scan. -/

theorem scanStepT_wh_removes (rootfs : FPath) (st : ScanSt) (rel0 : FPath)
    (c : String)
    (hb : strStarts (bname rel0) whMark = true) (hno : bname rel0 ≠ whOpq)
    (hm : lookup st.fs (rootfs ++ rel0) = none)
    (hT : lookup st.fs (rootfs ++ rel0.dropLast ++ [strDropN (bname rel0) 4]) = none ∨
      ∃ c2, lookup st.fs (rootfs ++ rel0.dropLast ++ [strDropN (bname rel0) 4]) =
        some (Node.file c2)) :
    lookup (scanStepT rootfs st (rel0, Node.file c)).1.fs
      (rootfs ++ rel0.dropLast ++ [strDropN (bname rel0) 4]) = none := by
  have hw : entryWhiteout rel0 (Node.file c) = true := by
    simp [entryWhiteout, isFileN, hb]
  have hstatm : stat1 st.fs (rootfs ++ rel0) = none := stat1_of_none _ _ hm
  have hsomem : (stat1 st.fs (rootfs ++ rel0)).isSome = false := by
    rw [hstatm]
    rfl
  have htp : whTargetPath rootfs rel0 =
      rootfs ++ rel0.dropLast ++ [strDropN (bname rel0) 4] := by
    unfold whTargetPath
    rw [if_neg hno]
  have hrem : entryRemove st.fs rootfs rel0 (Node.file c) =
      some (rootfs ++ rel0.dropLast ++ [strDropN (bname rel0) 4]) := by
    unfold entryRemove
    rw [if_neg (by rw [hsomem]; exact Bool.false_ne_true), if_pos hw, htp]
  unfold scanStepT
  rw [hrem]
  rcases hT with hT | ⟨c2, hT⟩
  · have hs : (stat1 st.fs (rootfs ++ rel0.dropLast ++ [strDropN (bname rel0) 4])).isSome
        = false := by
      rw [stat1_of_none _ _ hT]
      rfl
    simp only [hs, Bool.false_eq_true, if_false]
    exact hT
  · have hs : (stat1 st.fs (rootfs ++ rel0.dropLast ++ [strDropN (bname rel0) 4])).isSome
        = true := by
      rw [stat1_of_file _ _ c2 hT]
      rfl
    simp only [hs, if_true]
    have hd : statIsDir st.fs (rootfs ++ rel0.dropLast ++ [strDropN (bname rel0) 4])
        = false := by
      unfold statIsDir
      rw [stat1_of_file _ _ c2 hT]
      simp
    rw [hd]
    simp only [Bool.false_eq_true, if_false]
    rw [lookup_removeExact]
    simp

theorem scanSts_wh_target (rootfs : FPath) (l1 l2 : Layer) (rel0 : FPath)
    (c : String) (st : ScanSt)
    (hb : strStarts (bname rel0) whMark = true) (hno : bname rel0 ≠ whOpq)
    (hm0 : lookup st.fs (rootfs ++ rel0) = none)
    (hT0 : lookup st.fs (rootfs ++ rel0.dropLast ++ [strDropN (bname rel0) 4]) = none ∨
      ∃ c2, lookup st.fs (rootfs ++ rel0.dropLast ++ [strDropN (bname rel0) 4]) =
        some (Node.file c2)) :
    lookup (scanSts rootfs (l1 ++ (rel0, Node.file c) :: l2) st).fs
      (rootfs ++ rel0.dropLast ++ [strDropN (bname rel0) 4]) = none := by
  rw [scanSts_append,
    show ((rel0, Node.file c) :: l2 : Layer) = [(rel0, Node.file c)] ++ l2 from rfl,
    scanSts_append]
  refine scanSts_none rootfs l2 _ _ ?_
  have hm1 : lookup (scanSts rootfs l1 st).fs (rootfs ++ rel0) = none :=
    scanSts_none rootfs l1 st _ hm0
  have hT1 := scanSts_fileOrNone rootfs l1 st _ hT0
  rw [show scanSts rootfs [(rel0, Node.file c)] (scanSts rootfs l1 st) =
    (scanStepT rootfs (scanSts rootfs l1 st) (rel0, Node.file c)).1 from rfl]
  exact scanStepT_wh_removes rootfs _ rel0 c hb hno hm1 hT1

/-! Opaque whiteout wipe (claim C2). -/

/-- Shape of the filesystem change of one scan step. -/
theorem scanStepT_fs_shape (rootfs : FPath) (st : ScanSt) (ent : FPath × Node) :
    (scanStepT rootfs st ent).1.fs = st.fs ∨
    (∃ p, statIsDir st.fs p = false ∧
      (scanStepT rootfs st ent).1.fs = removeExact p st.fs) ∨
    (∃ p, statIsDir st.fs p = true ∧
      (scanStepT rootfs st ent).1.fs = removeTree p st.fs) := by
  unfold scanStepT
  cases h : entryRemove st.fs rootfs ent.1 ent.2 with
  | none => exact Or.inl rfl
  | some p =>
    by_cases h1 : (stat1 st.fs p).isSome = true
    · by_cases h2 : statIsDir st.fs p = true
      · refine Or.inr (Or.inr ⟨p, h2, ?_⟩)
        dsimp only
        rw [if_pos h1, if_pos h2]
      · refine Or.inr (Or.inl ⟨p, Bool.eq_false_iff.mpr h2, ?_⟩)
        dsimp only
        rw [if_pos h1, if_neg h2]
    · refine Or.inl ?_
      dsimp only
      rw [if_neg h1]

/-- Invariant for the opaque wipe: either the target directory is still
a directory and the marker path is untouched, or everything below (and
including) the target directory is already gone. -/
def OpqInv (D rp : FPath) (st : ScanSt) : Prop :=
  (lookup st.fs D = some Node.dir ∧ lookup st.fs rp = none) ∨
    (∀ q, lPre D q = true → lookup st.fs q = none)

theorem scanStepT_opqInv (rootfs : FPath) (st : ScanSt) (ent : FPath × Node)
    (D rp : FPath) (h : OpqInv D rp st) :
    OpqInv D rp ⟨(scanStepT rootfs st ent).1.whiteouts, (scanStepT rootfs st ent).1.fs⟩ := by
  rcases h with ⟨hdir, hrp⟩ | hall
  · rcases scanStepT_fs_shape rootfs st ent with hs | ⟨p, hp, hs⟩ | ⟨p, hp, hs⟩
    · left
      rw [hs]
      exact ⟨hdir, hrp⟩
    · left
      have hpD : p ≠ D := by
        intro hc
        subst hc
        unfold statIsDir at hp
        rw [stat1_of_dir st.fs p hdir] at hp
        simp at hp
      constructor
      · rw [hs, lookup_removeExact, if_neg (fun hc => hpD hc.symm)]
        exact hdir
      · rw [hs, lookup_removeExact]
        by_cases hc : rp = p
        · simp [hc]
        · rw [if_neg hc]
          exact hrp
    · by_cases hpD : lPre p D = true
      · right
        intro q hq
        rw [hs, lookup_removeTree, if_pos (lPre_trans hpD hq)]
      · left
        constructor
        · rw [hs, lookup_removeTree, if_neg hpD]
          exact hdir
        · rw [hs, lookup_removeTree]
          by_cases hc : lPre p rp = true
          · simp [hc]
          · rw [if_neg hc]
            exact hrp
  · right
    intro q hq
    rcases thinned_scanStepT rootfs st ent q with h1 | h1
    · exact h1
    · rw [h1]
      exact hall q hq

theorem scanSts_opqInv (rootfs : FPath) (l : Layer) (st : ScanSt) (D rp : FPath)
    (h : OpqInv D rp st) : OpqInv D rp (scanSts rootfs l st) := by
  induction l generalizing st with
  | nil => exact h
  | cons e ls ih =>
    rw [scanSts]
    refine ih _ ?_
    have h1 := scanStepT_opqInv rootfs st e D rp h
    rcases h1 with h1 | h1
    · exact Or.inl h1
    · exact Or.inr h1

/-- The scan step on the opaque marker wipes the containing directory. -/
theorem scanStepT_opq_removes (rootfs : FPath) (st : ScanSt) (rel0 : FPath)
    (c : String) (hb : bname rel0 = whOpq)
    (h : OpqInv (rootfs ++ rel0.dropLast) (rootfs ++ rel0) st) :
    ∀ q, lPre (rootfs ++ rel0.dropLast) q = true →
      lookup (scanStepT rootfs st (rel0, Node.file c)).1.fs q = none := by
  intro q hq
  rcases h with ⟨hdir, hrp⟩ | hall
  · have hw : entryWhiteout rel0 (Node.file c) = true := by
      simp only [entryWhiteout, isFileN, Bool.true_and]
      rw [hb]
      decide
    have hsomem : (stat1 st.fs (rootfs ++ rel0)).isSome = false := by
      rw [stat1_of_none _ _ hrp]
      rfl
    have hrem : entryRemove st.fs rootfs rel0 (Node.file c) =
        some (rootfs ++ rel0.dropLast) := by
      unfold entryRemove
      rw [if_neg (by rw [hsomem]; exact Bool.false_ne_true), if_pos hw]
      unfold whTargetPath
      rw [if_pos hb]
    have hsD : (stat1 st.fs (rootfs ++ rel0.dropLast)).isSome = true := by
      rw [stat1_of_dir _ _ hdir]
      rfl
    have hdD : statIsDir st.fs (rootfs ++ rel0.dropLast) = true := by
      unfold statIsDir
      rw [stat1_of_dir _ _ hdir]
      simp
    unfold scanStepT
    rw [hrem]
    dsimp only
    rw [if_pos hsD, hdD]
    simp only [if_true]
    rw [lookup_removeTree, if_pos hq]
  · rcases thinned_scanStepT rootfs st (rel0, Node.file c) q with h1 | h1
    · exact h1
    · rw [h1]
      exact hall q hq

theorem scanSts_opq_wipe (rootfs : FPath) (l1 l2 : Layer) (rel0 : FPath)
    (c : String) (st : ScanSt) (hb : bname rel0 = whOpq)
    (hD0 : lookup st.fs (rootfs ++ rel0.dropLast) = some Node.dir)
    (hm0 : lookup st.fs (rootfs ++ rel0) = none) :
    ∀ q, lPre (rootfs ++ rel0.dropLast) q = true →
      lookup (scanSts rootfs (l1 ++ (rel0, Node.file c) :: l2) st).fs q = none := by
  intro q hq
  rw [scanSts_append,
    show ((rel0, Node.file c) :: l2 : Layer) = [(rel0, Node.file c)] ++ l2 from rfl,
    scanSts_append]
  refine scanSts_none rootfs l2 _ _ ?_
  have hinv : OpqInv (rootfs ++ rel0.dropLast) (rootfs ++ rel0) (scanSts rootfs l1 st) :=
    scanSts_opqInv rootfs l1 st _ _ (Or.inl ⟨hD0, hm0⟩)
  rw [show scanSts rootfs [(rel0, Node.file c)] (scanSts rootfs l1 st) =
    (scanStepT rootfs (scanSts rootfs l1 st) (rel0, Node.file c)).1 from rfl]
  exact scanStepT_opq_removes rootfs _ rel0 c hb hinv q hq

/-! Characterization of the copy, the cleanup, and a whole pass. -/

theorem key_unique (l : Layer) (hnd : (l.map Prod.fst).Nodup) (a : FPath)
    (b c : Node) (h1 : (a, b) ∈ l) (h2 : (a, c) ∈ l) : b = c := by
  induction l with
  | nil => cases h1
  | cons e l ih =>
    simp only [List.map_cons, List.nodup_cons] at hnd
    rcases List.mem_cons.mp h1 with he1 | hm1
    · rcases List.mem_cons.mp h2 with he2 | hm2
      · have h3 : (a, b) = (a, c) := he1.trans he2.symm
        injection h3 with _ h4
      · exfalso
        have ha : a ∈ l.map Prod.fst := List.mem_map_of_mem Prod.fst hm2
        have he : e.1 = a := by rw [← he1]
        exact hnd.1 (he ▸ ha)
    · rcases List.mem_cons.mp h2 with he2 | hm2
      · exfalso
        have ha : a ∈ l.map Prod.fst := List.mem_map_of_mem Prod.fst hm1
        have he : e.1 = a := by rw [← he2]
        exact hnd.1 (he ▸ ha)
      · exact ih hnd.2 hm1 hm2

theorem cpStep_sets (rootfs : FPath) (fs : FS) (rel : FPath) (node : Node)
    (fs' : FS) (h : cpStep rootfs fs (rel, node) = .ok fs') :
    lookup fs' (rootfs ++ rel) = some (cpNode node) := by
  cases node with
  | dir =>
    cases hl : lookup fs (rootfs ++ rel) with
    | none =>
      simp only [cpStep, hl] at h
      injection h with h2
      subst h2
      rw [lookup_insertFS]
      simp [cpNode]
    | some n =>
      cases n with
      | dir =>
        simp only [cpStep, hl] at h
        injection h with h2
        subst h2
        exact hl
      | file c =>
        simp only [cpStep, hl] at h
        exact Except.noConfusion h
      | link t =>
        simp only [cpStep, hl] at h
        exact Except.noConfusion h
  | file c =>
    cases hl : lookup fs (rootfs ++ rel) with
    | none =>
      simp only [cpStep, hl] at h
      injection h with h2
      subst h2
      rw [lookup_insertFS]
      simp [cpNode]
    | some n =>
      cases n with
      | dir =>
        simp only [cpStep, hl] at h
        exact Except.noConfusion h
      | file c2 =>
        simp only [cpStep, hl] at h
        injection h with h2
        subst h2
        rw [lookup_insertFS]
        simp [cpNode]
      | link t =>
        simp only [cpStep, hl] at h
        exact Except.noConfusion h
  | link t =>
    cases hl : lookup fs (rootfs ++ rel) with
    | none =>
      simp only [cpStep, hl] at h
      injection h with h2
      subst h2
      rw [lookup_insertFS]
      simp [cpNode]
    | some n =>
      cases n with
      | dir =>
        simp only [cpStep, hl] at h
        exact Except.noConfusion h
      | file c2 =>
        simp only [cpStep, hl] at h
        injection h with h2
        subst h2
        rw [lookup_insertFS]
        simp [cpNode]
      | link t2 =>
        simp only [cpStep, hl] at h
        injection h with h2
        subst h2
        rw [lookup_insertFS]
        simp [cpNode]

theorem cpFold_sets (rootfs : FPath) (layer : Layer) :
    ∀ (fs fs' : FS), layer.foldlM (cpStep rootfs) fs = .ok fs' →
      (layer.map Prod.fst).Nodup →
      ∀ rel node, (rel, node) ∈ layer →
        lookup fs' (rootfs ++ rel) = some (cpNode node) := by
  induction layer with
  | nil =>
    intro fs fs' _ _ rel node hm
    cases hm
  | cons e l ih =>
    intro fs fs' h hnd rel node hm
    rw [List.foldlM_cons] at h
    cases h1 : cpStep rootfs fs e with
    | error m =>
      rw [h1] at h
      exact Except.noConfusion h
    | ok fs1 =>
      rw [h1] at h
      simp only [List.map_cons, List.nodup_cons] at hnd
      rcases List.mem_cons.mp hm with he | hl2
      · have h1e : cpStep rootfs fs (rel, node) = .ok fs1 := by
          rw [← he] at h1
          exact h1
        have hset := cpStep_sets rootfs fs rel node fs1 h1e
        have hq : ∀ ent ∈ l, rootfs ++ rel ≠ rootfs ++ ent.1 := by
          intro ent hment hc
          have hrel : rel = ent.1 := List.append_cancel_left hc
          have he1 : e.1 = rel := by rw [← he]
          exact hnd.1 (he1 ▸ hrel ▸ List.mem_map_of_mem Prod.fst hment)
        rw [cpFold_frame rootfs l fs1 fs' h (rootfs ++ rel) hq]
        exact hset
      · exact ih fs1 fs' h hnd.2 rel node hl2

theorem cpMerge_sets (rootfs : FPath) (layer : Layer) (fs fs' : FS)
    (h : cpMerge rootfs layer fs = .ok fs') (hnd : (layer.map Prod.fst).Nodup) :
    ∀ rel node, (rel, node) ∈ layer →
      lookup fs' (rootfs ++ rel) = some (cpNode node) := by
  rcases cpMerge_cases rootfs layer fs with ⟨_, heq⟩ | ⟨_, heq⟩ | heq
  · rw [heq] at h
    exact cpFold_sets rootfs layer fs fs' h hnd
  · rw [heq] at h
    exact cpFold_sets rootfs layer _ fs' h hnd
  · rw [heq] at h
    exact absurd h (fun hc => Except.noConfusion hc)

theorem cpMerge_root (rootfs : FPath) (layer : Layer) (fs fs' : FS)
    (h : cpMerge rootfs layer fs = .ok fs')
    (hne : ∀ ent ∈ layer, ent.1 ≠ []) :
    lookup fs' rootfs = some Node.dir := by
  have hq : ∀ ent ∈ layer, rootfs ≠ rootfs ++ ent.1 := by
    intro ent hm hc
    exact hne ent hm ((append_eq_self_iff rootfs ent.1).mp hc.symm)
  rcases cpMerge_cases rootfs layer fs with ⟨hdir, heq⟩ | ⟨_, heq⟩ | heq
  · rw [heq] at h
    rw [cpFold_frame rootfs layer fs fs' h rootfs hq]
    exact hdir
  · rw [heq] at h
    rw [cpFold_frame rootfs layer _ fs' h rootfs hq, lookup_insertFS]
    simp
  · rw [heq] at h
    exact absurd h (fun hc => Except.noConfusion hc)

theorem unlinkAllP_err_removes (ws : List FPath) (fs : FS)
    (hok : (unlinkAllP ws fs).err = none) :
    ∀ w ∈ ws, lookup (unlinkAllP ws fs).fs w = none := by
  induction ws generalizing fs with
  | nil =>
    intro w hw
    cases hw
  | cons w0 ws ih =>
    intro w hw
    unfold unlinkAllP at hok ⊢
    cases hl : lookup fs w0 with
    | none =>
      rw [hl] at hok
      exact Option.noConfusion hok
    | some n =>
      rw [hl] at hok
      cases n with
      | dir => exact Option.noConfusion hok
      | file c =>
        dsimp only at hok ⊢
        rcases List.mem_cons.mp hw with hw0 | hmem
        · subst hw0
          by_cases hin : w ∈ ws
          · exact ih (removeExact w fs) hok w hin
          · rw [unlinkAllP_frame ws _ w (fun w2 h2 hc => hin (hc ▸ h2)),
              lookup_removeExact]
            simp
        · exact ih (removeExact w0 fs) hok w hmem
      | link t =>
        dsimp only at hok ⊢
        rcases List.mem_cons.mp hw with hw0 | hmem
        · subst hw0
          by_cases hin : w ∈ ws
          · exact ih (removeExact w fs) hok w hin
          · rw [unlinkAllP_frame ws _ w (fun w2 h2 hc => hin (hc ▸ h2)),
              lookup_removeExact]
            simp
        · exact ih (removeExact w0 fs) hok w hmem

theorem layerPassFull_ok (rootfs : FPath) (layer : Layer) (fs : FS)
    (hok : (layerPassFull rootfs layer fs).err = none) :
    ∃ fs1, cpMerge rootfs layer (scanLayer rootfs layer fs).1.fs = .ok fs1 ∧
      (unlinkAllP (scanLayer rootfs layer fs).1.whiteouts fs1).err = none ∧
      (layerPassFull rootfs layer fs).fs =
        (unlinkAllP (scanLayer rootfs layer fs).1.whiteouts fs1).fs := by
  unfold layerPassFull at hok ⊢
  cases h : cpMerge rootfs layer (scanLayer rootfs layer fs).1.fs with
  | error e =>
    rw [h] at hok
    exact Option.noConfusion hok
  | ok fs1 =>
    rw [h] at hok
    exact ⟨fs1, rfl, hok, rfl⟩

theorem mem_wsOf (rootfs : FPath) (layer : Layer) (rel : FPath) (node : Node)
    (hm : (rel, node) ∈ layer) (hw : entryWhiteout rel node = true) :
    rootfs ++ rel ∈ wsOf rootfs layer := by
  unfold wsOf
  exact List.mem_map_of_mem _ (List.mem_filter.mpr ⟨hm, by simpa using hw⟩)

theorem wsOf_mem (rootfs : FPath) (layer : Layer) (w : FPath)
    (hw : w ∈ wsOf rootfs layer) :
    ∃ rel n, (rel, n) ∈ layer ∧ entryWhiteout rel n = true ∧ w = rootfs ++ rel := by
  unfold wsOf at hw
  obtain ⟨e, he, hee⟩ := List.mem_map.mp hw
  have h2 := List.mem_filter.mp he
  exact ⟨e.1, e.2, by simpa using h2.1, by simpa using h2.2, hee.symm⟩

theorem scanLayer_ws (rootfs : FPath) (layer : Layer) (fs : FS) :
    (scanLayer rootfs layer fs).1.whiteouts = wsOf rootfs layer := by
  rw [scanLayer_eq]
  dsimp only
  rw [scanSts_ws]
  simp

/-- What a successful pass leaves at the path of each layer entry: a
whiteout marker is gone; anything else carries the copied node. -/
theorem layerPass_sets (rootfs : FPath) (layer : Layer) (fs : FS)
    (hok : (layerPassFull rootfs layer fs).err = none)
    (hnd : (layer.map Prod.fst).Nodup) :
    ∀ rel node, (rel, node) ∈ layer →
      lookup (layerPassFull rootfs layer fs).fs (rootfs ++ rel) =
        (if entryWhiteout rel node = true then none else some (cpNode node)) := by
  intro rel node hm
  obtain ⟨fs1, hcp, hunl, hfs⟩ := layerPassFull_ok rootfs layer fs hok
  rw [hfs]
  by_cases hw : entryWhiteout rel node = true
  · rw [if_pos hw]
    refine unlinkAllP_err_removes _ fs1 hunl (rootfs ++ rel) ?_
    rw [scanLayer_ws]
    exact mem_wsOf rootfs layer rel node hm hw
  · rw [if_neg hw]
    have hnotws : ∀ w ∈ (scanLayer rootfs layer fs).1.whiteouts, rootfs ++ rel ≠ w := by
      intro w hwmem hc
      rw [scanLayer_ws] at hwmem
      obtain ⟨rel2, n2, hm2, hw2, hweq⟩ := wsOf_mem rootfs layer w hwmem
      have hrel : rel = rel2 := List.append_cancel_left (hc.trans hweq)
      subst hrel
      have hnn : node = n2 := key_unique layer hnd rel node n2 hm hm2
      rw [← hnn] at hw2
      exact hw hw2
    rw [unlinkAllP_frame _ fs1 _ hnotws]
    exact cpMerge_sets rootfs layer _ fs1 hcp hnd rel node hm

/-- At a path that is neither the rootfs itself nor any layer entry
path, the pass result equals the post-scan state. -/
theorem layerPass_residue (rootfs : FPath) (layer : Layer) (fs : FS) (q : FPath)
    (hq1 : ∀ ent ∈ layer, q ≠ rootfs ++ ent.1) (hq0 : q ≠ rootfs) :
    lookup (layerPassFull rootfs layer fs).fs q =
      lookup (scanLayer rootfs layer fs).1.fs q := by
  unfold layerPassFull
  cases h : cpMerge rootfs layer (scanLayer rootfs layer fs).1.fs with
  | error e => rfl
  | ok fs1 =>
    dsimp only
    have hnotws : ∀ w ∈ (scanLayer rootfs layer fs).1.whiteouts, q ≠ w := by
      intro w hw hc
      rw [scanLayer_ws] at hw
      obtain ⟨rel2, n2, hm2, _, hweq⟩ := wsOf_mem rootfs layer w hw
      exact hq1 (rel2, n2) hm2 (hc.trans hweq)
    rw [unlinkAllP_frame _ fs1 q hnotws]
    exact cpMerge_frame rootfs layer _ fs1 h q hq1 hq0

theorem layerPass_root (rootfs : FPath) (layer : Layer) (fs : FS)
    (hok : (layerPassFull rootfs layer fs).err = none)
    (hne : ∀ ent ∈ layer, ent.1 ≠ []) :
    lookup (layerPassFull rootfs layer fs).fs rootfs = some Node.dir := by
  obtain ⟨fs1, hcp, hunl, hfs⟩ := layerPassFull_ok rootfs layer fs hok
  rw [hfs]
  have hnotws : ∀ w ∈ (scanLayer rootfs layer fs).1.whiteouts, rootfs ≠ w := by
    intro w hw hc
    rw [scanLayer_ws] at hw
    obtain ⟨rel2, n2, hm2, _, hweq⟩ := wsOf_mem rootfs layer w hw
    exact hne (rel2, n2) hm2 ((append_eq_self_iff rootfs rel2).mp (hc.trans hweq).symm)
  rw [unlinkAllP_frame _ fs1 _ hnotws]
  exact cpMerge_root rootfs layer _ fs1 hcp hne

/-- A successful pass never leaves a regular file whose basename starts
with the whiteout marker inside the rootfs (given the pre-state had
none): markers of the layer are recorded and unlinked after the copy,
and existing files are only removed, never renamed. -/
theorem layerPass_noWh (rootfs : FPath) (layer : Layer) (fs : FS)
    (hok : (layerPassFull rootfs layer fs).err = none)
    (hnd : (layer.map Prod.fst).Nodup)
    (hne : ∀ ent ∈ layer, ent.1 ≠ [])
    (hpre : ∀ q c, lPre rootfs q = true → lookup fs q = some (Node.file c) →
      strStarts (bname q) whMark = false) :
    ∀ q c, lPre rootfs q = true →
      lookup (layerPassFull rootfs layer fs).fs q = some (Node.file c) →
      strStarts (bname q) whMark = false := by
  intro q c hqu hlq
  by_cases hqr : q = rootfs
  · rw [hqr, layerPass_root rootfs layer fs hok hne] at hlq
    simp at hlq
  by_cases hex : ∃ ent, ent ∈ layer ∧ q = rootfs ++ ent.1
  · obtain ⟨⟨rel, node⟩, hm, hqe⟩ := hex
    subst hqe
    rw [layerPass_sets rootfs layer fs hok hnd rel node hm] at hlq
    by_cases hw : entryWhiteout rel node = true
    · rw [if_pos hw] at hlq
      exact Option.noConfusion hlq
    · rw [if_neg hw] at hlq
      injection hlq with h2
      have hnode : node = Node.file c := by
        cases node with
        | dir => exact absurd h2 (fun hc => Node.noConfusion hc)
        | file c2 =>
          have : c2 = c := Node.file.inj h2
          rw [this]
        | link t => exact absurd h2 (fun hc => Node.noConfusion hc)
      subst hnode
      have hstarts : strStarts (bname rel) whMark = false := by
        by_cases hs : strStarts (bname rel) whMark = true
        · exfalso
          apply hw
          simp [entryWhiteout, isFileN, hs]
        · exact Bool.eq_false_iff.mpr hs
      rw [bname_append rootfs rel (hne (rel, Node.file c) hm)]
      exact hstarts
  · have hq1 : ∀ ent ∈ layer, q ≠ rootfs ++ ent.1 :=
      fun ent hm hc => hex ⟨ent, hm, hc⟩
    rw [layerPass_residue rootfs layer fs q hq1 hqr] at hlq
    rw [scanLayer_eq] at hlq
    dsimp only at hlq
    rcases thinned_scanSts rootfs layer ⟨[], fs⟩ q with h1 | h1
    · rw [h1] at hlq
      exact Option.noConfusion hlq
    · rw [h1] at hlq
      exact hpre q c hqu hlq

/-! Provision destructuring for a two-layer stack. -/

theorem mkdirRec_fresh (rootfs : FPath) (fs0 fs1 : FS)
    (hmk : mkdirRec rootfs fs0 = .ok fs1)
    (q : FPath) (hq : lPre rootfs q = true) (hqr : q ≠ rootfs) :
    lookup fs1 q = lookup fs0 q := by
  refine mkdirFold_frame (ancList rootfs) fs0 fs1 hmk q ?_
  intro a ha hc
  subst hc
  exact hqr (lPre_antisymm (ancList_mem rootfs q ha) hq)

theorem cbProvision_two (A B : Layer) (rootfs : FPath) (fs0 : FS)
    (hok : (cbProvision [A, B] rootfs fs0).err = none) :
    ∃ fs1, mkdirRec rootfs fs0 = .ok fs1 ∧
      (layerPassFull rootfs A fs1).err = none ∧
      (layerPassFull rootfs B (layerPassFull rootfs A fs1).fs).err = none ∧
      (cbProvision [A, B] rootfs fs0).fs =
        (layerPassFull rootfs B (layerPassFull rootfs A fs1).fs).fs := by
  unfold cbProvision at hok ⊢
  have h0 : ([A, B] : List Layer).isEmpty = false := rfl
  rw [h0] at hok ⊢
  simp only [Bool.false_eq_true, if_false] at hok ⊢
  by_cases hst : (stat1 fs0 rootfs).isSome = true
  · rw [if_pos hst] at hok
    exact Option.noConfusion hok
  · rw [if_neg hst] at hok ⊢
    cases hmk : mkdirRec rootfs fs0 with
    | error e =>
      rw [hmk] at hok
      exact Option.noConfusion hok
    | ok fs1 =>
      rw [hmk] at hok
      dsimp only at hok ⊢
      unfold passLayers at hok ⊢
      cases hA : (layerPassFull rootfs A fs1).err with
      | some e =>
        rw [hA] at hok
        exact Option.noConfusion hok
      | none =>
        rw [hA] at hok
        dsimp only at hok ⊢
        unfold passLayers at hok ⊢
        cases hB : (layerPassFull rootfs B (layerPassFull rootfs A fs1).fs).err with
        | some e =>
          rw [hB] at hok
          exact Option.noConfusion hok
        | none =>
          exact ⟨fs1, rfl, hA, hB, rfl⟩

/-- Claim C1 counterexample: a successful two-layer provision in which
layer A contains the regular file foo/bar and layer B contains the
regular file foo/.wh.bar, yet the merged rootfs still contains foo/bar —
because B itself also carries a regular file foo/bar, which the copy of
B re-creates after the whiteout removal. -/
theorem claim_C1_counterexample :
    (["foo", "bar"], Node.file "A") ∈
      ([(["foo"], Node.dir), (["foo", "bar"], Node.file "A")] : Layer) ∧
    (["foo", ".wh.bar"], Node.file "") ∈
      ([(["foo"], Node.dir), (["foo", "bar"], Node.file "B"),
        (["foo", ".wh.bar"], Node.file "")] : Layer) ∧
    (cbProvision
      [[(["foo"], Node.dir), (["foo", "bar"], Node.file "A")],
        [(["foo"], Node.dir), (["foo", "bar"], Node.file "B"),
          (["foo", ".wh.bar"], Node.file "")]]
      ["r"] []).err = none ∧
    lookup
      (cbProvision
        [[(["foo"], Node.dir), (["foo", "bar"], Node.file "A")],
          [(["foo"], Node.dir), (["foo", "bar"], Node.file "B"),
            (["foo", ".wh.bar"], Node.file "")]]
        ["r"] []).fs ["r", "foo", "bar"] = some (Node.file "B") := by decide

/-- Claim C1, amended: for a two-layer stack [A, B] where A contains the
regular file foo/bar and B contains the regular file foo/.wh.bar,
PROVIDED the higher layer B carries no entry of its own at foo/bar and
the lower layer A carries no entry at foo/.wh.bar, a successful
Copy-backend provision yields a merged rootfs with no entry at foo/bar
and no regular file anywhere under the rootfs whose basename begins with
the whiteout marker. -/
theorem claim_C1_thm (A B : Layer) (rootfs : FPath) (fs0 : FS) (cA cB : String)
    (hrne : rootfs ≠ [])
    (hA : (["foo", "bar"], Node.file cA) ∈ A)
    (hB : (["foo", ".wh.bar"], Node.file cB) ∈ B)
    (hBno : ∀ n, (["foo", "bar"], n) ∉ B)
    (hAno : ∀ n, (["foo", ".wh.bar"], n) ∉ A)
    (hndA : (A.map Prod.fst).Nodup) (hndB : (B.map Prod.fst).Nodup)
    (hneA : ∀ ent ∈ A, ent.1 ≠ []) (hneB : ∀ ent ∈ B, ent.1 ≠ [])
    (hfresh : ∀ q, lPre rootfs q = true → q ≠ rootfs → lookup fs0 q = none)
    (hok : (cbProvision [A, B] rootfs fs0).err = none) :
    lookup (cbProvision [A, B] rootfs fs0).fs (rootfs ++ ["foo", "bar"]) = none ∧
    (∀ q c, lPre rootfs q = true →
      lookup (cbProvision [A, B] rootfs fs0).fs q = some (Node.file c) →
      strStarts (bname q) whMark = false) := by
  obtain ⟨fs1, hmk, hokA, hokB, hfs⟩ := cbProvision_two A B rootfs fs0 hok
  have hfresh1 : ∀ q, lPre rootfs q = true → q ≠ rootfs → lookup fs1 q = none := by
    intro q hq hqr
    rw [mkdirRec_fresh rootfs fs0 fs1 hmk q hq hqr]
    exact hfresh q hq hqr
  have hne2 : ∀ s : FPath, s ≠ [] → rootfs ++ s ≠ rootfs := by
    intro s hs hc
    exact hs ((append_eq_self_iff rootfs s).mp hc)
  -- After pass A, foo/bar holds the file from A.
  have hA1 : lookup (layerPassFull rootfs A fs1).fs (rootfs ++ ["foo", "bar"]) =
      some (Node.file cA) := by
    have hset := layerPass_sets rootfs A fs1 hokA hndA ["foo", "bar"]
      (Node.file cA) hA
    have hw : ¬ (entryWhiteout ["foo", "bar"] (Node.file cA) = true) := by
      simp only [entryWhiteout, isFileN, Bool.true_and]
      decide
    rw [hset, if_neg hw]
    rfl
  -- After pass A, nothing sits at foo/.wh.bar.
  have hA2 : lookup (layerPassFull rootfs A fs1).fs (rootfs ++ ["foo", ".wh.bar"]) =
      none := by
    rw [layerPass_residue rootfs A fs1 _ ?_ (hne2 _ (by decide))]
    · rw [scanLayer_eq]
      dsimp only
      refine scanSts_none rootfs A ⟨[], fs1⟩ _ ?_
      exact hfresh1 _ (lPre_append rootfs _) (hne2 _ (by decide))
    · intro ent hm hc
      have hrel : ["foo", ".wh.bar"] = ent.1 := List.append_cancel_left hc
      have h6 : (ent.1, ent.2) ∈ A := by simpa using hm
      rw [← hrel] at h6
      exact hAno ent.2 h6
  -- After pass A, no whiteout-named regular file exists under rootfs.
  have hA3 : ∀ q c, lPre rootfs q = true →
      lookup (layerPassFull rootfs A fs1).fs q = some (Node.file c) →
      strStarts (bname q) whMark = false := by
    refine layerPass_noWh rootfs A fs1 hokA hndA hneA ?_
    intro q c hq hlq
    by_cases hqr : q = rootfs
    · rw [hqr, mkdirRec_root rootfs fs0 fs1 hmk hrne] at hlq
      simp at hlq
    · rw [hfresh1 q hq hqr] at hlq
      exact Option.noConfusion hlq
  -- The scan of pass B removes foo/bar.
  have hstr : strDropN (bname ["foo", ".wh.bar"]) 4 = "bar" := by decide
  have hTeq : rootfs ++ (["foo", ".wh.bar"] : FPath).dropLast ++
      [strDropN (bname ["foo", ".wh.bar"]) 4] = rootfs ++ ["foo", "bar"] := by
    rw [hstr]
    rw [show (["foo", ".wh.bar"] : FPath).dropLast = ["foo"] from rfl,
      List.append_assoc]
    rfl
  have hscanB : lookup
      (scanLayer rootfs B (layerPassFull rootfs A fs1).fs).1.fs
      (rootfs ++ ["foo", "bar"]) = none := by
    obtain ⟨l1, l2, hsplit⟩ := List.append_of_mem hB
    rw [scanLayer_eq]
    dsimp only
    rw [hsplit, ← hTeq]
    refine scanSts_wh_target rootfs l1 l2 ["foo", ".wh.bar"] cB _
      (by decide) (by decide) hA2 ?_
    rw [hTeq]
    exact Or.inr ⟨cA, hA1⟩
  have hq1B : ∀ ent ∈ B, rootfs ++ ["foo", "bar"] ≠ rootfs ++ ent.1 := by
    intro ent hm hc
    have hrel : ["foo", "bar"] = ent.1 := List.append_cancel_left hc
    have h6 : (ent.1, ent.2) ∈ B := by simpa using hm
    rw [← hrel] at h6
    exact hBno ent.2 h6
  rw [hfs]
  constructor
  · rw [layerPass_residue rootfs B (layerPassFull rootfs A fs1).fs _ hq1B
      (hne2 _ (by decide))]
    exact hscanB
  · exact layerPass_noWh rootfs B (layerPassFull rootfs A fs1).fs hokB hndB hneB hA3

theorem claim_C1_witness :
    lookup
      (cbProvision
        [[(["foo"], Node.dir), (["foo", "bar"], Node.file "A")],
          [(["foo"], Node.dir), (["foo", ".wh.bar"], Node.file "")]]
        ["r"] []).fs (["r"] ++ ["foo", "bar"]) = none :=
  (claim_C1_thm
    [(["foo"], Node.dir), (["foo", "bar"], Node.file "A")]
    [(["foo"], Node.dir), (["foo", ".wh.bar"], Node.file "")]
    ["r"] [] "A" ""
    (by decide) (by decide) (by decide)
    (by intro n hn; simp at hn)
    (by intro n hn; simp at hn)
    (by decide) (by decide)
    (by
      intro ent hm
      simp only [List.mem_cons, List.not_mem_nil, or_false] at hm
      rcases hm with h | h <;> subst h <;> decide)
    (by
      intro ent hm
      simp only [List.mem_cons, List.not_mem_nil, or_false] at hm
      rcases hm with h | h <;> subst h <;> decide)
    (fun q _ _ => rfl)
    (by decide)).1

/-- Claim C2: for a two-layer stack [A, B] where A contains the
directory dir with exactly the regular files x, y, z inside and B
contains, inside dir, exactly the opaque marker .wh..wh..opq and the
regular file w, a successful Copy-backend provision yields a merged
rootfs in which dir exists and contains only w: the opaque marker wipes
the whole lower-layer subtree of dir during the scan, the copy then
recreates dir from B, and the marker itself is unlinked after the copy. -/
theorem claim_C2_thm (A B : Layer) (rootfs : FPath) (fs0 : FS)
    (cx cy cz cw cm : String)
    (hrne : rootfs ≠ [])
    (hAdir : (["dir"], Node.dir) ∈ A)
    (hAx : (["dir", "x"], Node.file cx) ∈ A)
    (hAy : (["dir", "y"], Node.file cy) ∈ A)
    (hAz : (["dir", "z"], Node.file cz) ∈ A)
    (hAonly : ∀ rel n, (rel, n) ∈ A → lPre ["dir"] rel = true → rel ≠ ["dir"] →
      rel = ["dir", "x"] ∨ rel = ["dir", "y"] ∨ rel = ["dir", "z"])
    (hBdir : (["dir"], Node.dir) ∈ B)
    (hBm : (["dir", ".wh..wh..opq"], Node.file cm) ∈ B)
    (hBw : (["dir", "w"], Node.file cw) ∈ B)
    (hBonly : ∀ rel n, (rel, n) ∈ B → lPre ["dir"] rel = true → rel ≠ ["dir"] →
      rel = ["dir", ".wh..wh..opq"] ∨ rel = ["dir", "w"])
    (hndA : (A.map Prod.fst).Nodup) (hndB : (B.map Prod.fst).Nodup)
    (hneA : ∀ ent ∈ A, ent.1 ≠ []) (hneB : ∀ ent ∈ B, ent.1 ≠ [])
    (hfresh : ∀ q, lPre rootfs q = true → q ≠ rootfs → lookup fs0 q = none)
    (hok : (cbProvision [A, B] rootfs fs0).err = none) :
    lookup (cbProvision [A, B] rootfs fs0).fs (rootfs ++ ["dir"]) = some Node.dir ∧
    lookup (cbProvision [A, B] rootfs fs0).fs (rootfs ++ ["dir", "w"]) =
      some (Node.file cw) ∧
    (∀ q, lPre (rootfs ++ ["dir"]) q = true → q ≠ rootfs ++ ["dir"] →
      q ≠ rootfs ++ ["dir", "w"] →
      lookup (cbProvision [A, B] rootfs fs0).fs q = none) := by
  obtain ⟨fs1, hmk, hokA, hokB, hfs⟩ := cbProvision_two A B rootfs fs0 hok
  have hfresh1 : ∀ q, lPre rootfs q = true → q ≠ rootfs → lookup fs1 q = none := by
    intro q hq hqr
    rw [mkdirRec_fresh rootfs fs0 fs1 hmk q hq hqr]
    exact hfresh q hq hqr
  have hne2 : ∀ s : FPath, s ≠ [] → rootfs ++ s ≠ rootfs := by
    intro s hs hc
    exact hs ((append_eq_self_iff rootfs s).mp hc)
  -- After pass A, dir is a directory in the rootfs.
  have hAdirset : lookup (layerPassFull rootfs A fs1).fs (rootfs ++ ["dir"]) =
      some Node.dir := by
    have hset := layerPass_sets rootfs A fs1 hokA hndA ["dir"] Node.dir hAdir
    rw [hset, if_neg (by decide)]
    rfl
  -- After pass A, nothing sits at the opaque marker path.
  have hAm : lookup (layerPassFull rootfs A fs1).fs
      (rootfs ++ ["dir", ".wh..wh..opq"]) = none := by
    rw [layerPass_residue rootfs A fs1 _ ?_ (hne2 _ (by decide))]
    · rw [scanLayer_eq]
      dsimp only
      refine scanSts_none rootfs A ⟨[], fs1⟩ _ ?_
      exact hfresh1 _ (lPre_append rootfs _) (hne2 _ (by decide))
    · intro ent hm hc
      have hrel : ["dir", ".wh..wh..opq"] = ent.1 := List.append_cancel_left hc
      have h6 : (ent.1, ent.2) ∈ A := by simpa using hm
      rw [← hrel] at h6
      rcases hAonly _ ent.2 h6 (by decide) (by decide) with h | h | h
      · exact absurd h (by decide)
      · exact absurd h (by decide)
      · exact absurd h (by decide)
  -- The scan of pass B wipes the whole dir subtree.
  have hwipe : ∀ q, lPre (rootfs ++ ["dir"]) q = true →
      lookup (scanLayer rootfs B (layerPassFull rootfs A fs1).fs).1.fs q = none := by
    intro q hq
    obtain ⟨l1, l2, hsplit⟩ := List.append_of_mem hBm
    rw [scanLayer_eq]
    dsimp only
    rw [hsplit]
    exact scanSts_opq_wipe rootfs l1 l2 ["dir", ".wh..wh..opq"] cm _
      (by decide) hAdirset hAm q hq
  rw [hfs]
  -- The marker is gone from the final rootfs.
  have hmgone : lookup (layerPassFull rootfs B (layerPassFull rootfs A fs1).fs).fs
      (rootfs ++ ["dir", ".wh..wh..opq"]) = none := by
    have hset := layerPass_sets rootfs B (layerPassFull rootfs A fs1).fs hokB hndB
      ["dir", ".wh..wh..opq"] (Node.file cm) hBm
    have hw : entryWhiteout ["dir", ".wh..wh..opq"] (Node.file cm) = true := by
      simp only [entryWhiteout, isFileN, Bool.true_and]
      decide
    rw [hset, if_pos hw]
  refine ⟨?_, ?_, ?_⟩
  · have hset := layerPass_sets rootfs B (layerPassFull rootfs A fs1).fs hokB hndB
      ["dir"] Node.dir hBdir
    rw [hset, if_neg (by decide)]
    rfl
  · have hset := layerPass_sets rootfs B (layerPassFull rootfs A fs1).fs hokB hndB
      ["dir", "w"] (Node.file cw) hBw
    have hw : ¬ (entryWhiteout ["dir", "w"] (Node.file cw) = true) := by
      simp only [entryWhiteout, isFileN, Bool.true_and]
      decide
    rw [hset, if_neg hw]
    rfl
  · intro q hq hq1 hq2
    by_cases hmarker : q = rootfs ++ ["dir", ".wh..wh..opq"]
    · rw [hmarker]
      exact hmgone
    · by_cases hkey : ∃ ent, ent ∈ B ∧ q = rootfs ++ ent.1
      · obtain ⟨⟨rel, n⟩, hm, hqe⟩ := hkey
        have hq9 : lPre ["dir"] rel = true := by
          rw [hqe] at hq
          rwa [lPre_append_left] at hq
        have hrd : rel ≠ ["dir"] := by
          intro hc
          exact hq1 (by rw [hqe, hc])
        rcases hBonly rel n hm hq9 hrd with h | h
        · exact absurd (by rw [hqe, h]) hmarker
        · exact absurd (by rw [hqe, h]) hq2
      · have hq0 : q ≠ rootfs := by
          intro hc
          rw [hc] at hq
          have := lPre_length hq
          simp only [List.length_append, List.length_cons, List.length_nil] at this
          omega
        have hq1B : ∀ ent ∈ B, q ≠ rootfs ++ ent.1 :=
          fun ent hm hc => hkey ⟨ent, hm, hc⟩
        rw [layerPass_residue rootfs B (layerPassFull rootfs A fs1).fs q hq1B hq0]
        exact hwipe q hq

theorem claim_C2_witness :
    lookup
      (cbProvision
        [[(["dir"], Node.dir), (["dir", "x"], Node.file "f"),
          (["dir", "y"], Node.file "g"), (["dir", "z"], Node.file "h")],
          [(["dir"], Node.dir), (["dir", ".wh..wh..opq"], Node.file ""),
            (["dir", "w"], Node.file "k")]]
        ["r"] []).fs (["r"] ++ ["dir", "w"]) = some (Node.file "k") ∧
    lookup
      (cbProvision
        [[(["dir"], Node.dir), (["dir", "x"], Node.file "f"),
          (["dir", "y"], Node.file "g"), (["dir", "z"], Node.file "h")],
          [(["dir"], Node.dir), (["dir", ".wh..wh..opq"], Node.file ""),
            (["dir", "w"], Node.file "k")]]
        ["r"] []).fs ["r", "dir", "x"] = none :=
  ⟨(claim_C2_thm
      [(["dir"], Node.dir), (["dir", "x"], Node.file "f"),
        (["dir", "y"], Node.file "g"), (["dir", "z"], Node.file "h")]
      [(["dir"], Node.dir), (["dir", ".wh..wh..opq"], Node.file ""),
        (["dir", "w"], Node.file "k")]
      ["r"] [] "f" "g" "h" "k" ""
      (by decide) (by decide) (by decide) (by decide) (by decide)
      (by
        intro rel n hm h1 h2
        simp only [List.mem_cons, List.not_mem_nil, or_false] at hm
        rcases hm with h | h | h | h
        · injection h with ha _
          exact absurd ha h2
        · injection h with ha _
          exact Or.inl ha
        · injection h with ha _
          exact Or.inr (Or.inl ha)
        · injection h with ha _
          exact Or.inr (Or.inr ha))
      (by decide) (by decide) (by decide)
      (by
        intro rel n hm h1 h2
        simp only [List.mem_cons, List.not_mem_nil, or_false] at hm
        rcases hm with h | h | h
        · injection h with ha _
          exact absurd ha h2
        · injection h with ha _
          exact Or.inl ha
        · injection h with ha _
          exact Or.inr ha)
      (by decide) (by decide)
      (by
        intro ent hm
        simp only [List.mem_cons, List.not_mem_nil, or_false] at hm
        rcases hm with h | h | h | h <;> subst h <;> decide)
      (by
        intro ent hm
        simp only [List.mem_cons, List.not_mem_nil, or_false] at hm
        rcases hm with h | h | h <;> subst h <;> decide)
      (fun q _ _ => rfl)
      (by decide)).2.1,
    (claim_C2_thm
      [(["dir"], Node.dir), (["dir", "x"], Node.file "f"),
        (["dir", "y"], Node.file "g"), (["dir", "z"], Node.file "h")]
      [(["dir"], Node.dir), (["dir", ".wh..wh..opq"], Node.file ""),
        (["dir", "w"], Node.file "k")]
      ["r"] [] "f" "g" "h" "k" ""
      (by decide) (by decide) (by decide) (by decide) (by decide)
      (by
        intro rel n hm h1 h2
        simp only [List.mem_cons, List.not_mem_nil, or_false] at hm
        rcases hm with h | h | h | h
        · injection h with ha _
          exact absurd ha h2
        · injection h with ha _
          exact Or.inl ha
        · injection h with ha _
          exact Or.inr (Or.inl ha)
        · injection h with ha _
          exact Or.inr (Or.inr ha))
      (by decide) (by decide) (by decide)
      (by
        intro rel n hm h1 h2
        simp only [List.mem_cons, List.not_mem_nil, or_false] at hm
        rcases hm with h | h | h
        · injection h with ha _
          exact absurd ha h2
        · injection h with ha _
          exact Or.inl ha
        · injection h with ha _
          exact Or.inr ha)
      (by decide) (by decide)
      (by
        intro ent hm
        simp only [List.mem_cons, List.not_mem_nil, or_false] at hm
        rcases hm with h | h | h | h <;> subst h <;> decide)
      (by
        intro ent hm
        simp only [List.mem_cons, List.not_mem_nil, or_false] at hm
        rcases hm with h | h | h <;> subst h <;> decide)
      (fun q _ _ => rfl)
      (by decide)).2.2 ["r", "dir", "x"] (by decide) (by decide) (by decide)⟩

/-! Symlink handling of the scan (claim C7). -/

theorem stat1_link_file (fs : FS) (p t : FPath) (c : String)
    (hp : lookup fs p = some (Node.link t)) (ht : lookup fs t = some (Node.file c)) :
    stat1 fs p = some (Node.file c) := by
  unfold stat1 statN
  rw [hp]
  unfold statN
  rw [ht]

/-- When the rootfs path of the scanned entry is a symbolic link whose
target is an existing regular file, the two-step check fires whatever
the kind of the layer entry: a directory entry hits the kind-change
branch (stat sees a file, not a directory), anything else the islink
branch. -/
theorem entryRemove_link (fs : FS) (rootfs rel : FPath) (node : Node)
    (t : FPath) (c : String)
    (hp : lookup fs (rootfs ++ rel) = some (Node.link t))
    (ht : lookup fs t = some (Node.file c)) :
    entryRemove fs rootfs rel node = some (rootfs ++ rel) := by
  have hstat : stat1 fs (rootfs ++ rel) = some (Node.file c) :=
    stat1_link_file fs (rootfs ++ rel) t c hp ht
  unfold entryRemove
  have hsome : (stat1 fs (rootfs ++ rel)).isSome = true := by
    rw [hstat]
    rfl
  rw [if_pos hsome]
  by_cases hne : statIsDir fs (rootfs ++ rel) ≠ isDirN node
  · rw [if_pos hne]
  · rw [if_neg hne]
    have hl : isLinkO (lookup fs (rootfs ++ rel)) = true := by
      rw [hp]
      rfl
    rw [if_pos hl]

/-- The scan step removes such a link (as a link: a plain unlink). -/
theorem scanStepT_removes_link (rootfs : FPath) (st : ScanSt) (rel : FPath)
    (node : Node) (t : FPath) (c : String)
    (hp : lookup st.fs (rootfs ++ rel) = some (Node.link t))
    (ht : lookup st.fs t = some (Node.file c)) :
    lookup (scanStepT rootfs st (rel, node)).1.fs (rootfs ++ rel) = none := by
  have hrem : entryRemove st.fs rootfs rel node = some (rootfs ++ rel) :=
    entryRemove_link st.fs rootfs rel node t c hp ht
  have hstat : stat1 st.fs (rootfs ++ rel) = some (Node.file c) :=
    stat1_link_file st.fs (rootfs ++ rel) t c hp ht
  have hsome : (stat1 st.fs (rootfs ++ rel)).isSome = true := by
    rw [hstat]
    rfl
  have hdir : statIsDir st.fs (rootfs ++ rel) = false := by
    unfold statIsDir
    rw [hstat]
    simp
  unfold scanStepT
  rw [hrem]
  simp only [hsome, if_true]
  rw [hdir]
  simp only [Bool.false_eq_true, if_false]
  rw [lookup_removeExact]
  simp

/-- Invariant carried across scan steps: the rootfs path is still the
original link (with its target file intact outside the rootfs), or has
already been removed. -/
theorem scanSts_link_inv (rootfs : FPath) (l : Layer) (st : ScanSt)
    (rp t : FPath) (c : String) (hto : lPre rootfs t = false)
    (h : lookup st.fs rp = none ∨
      (lookup st.fs rp = some (Node.link t) ∧ lookup st.fs t = some (Node.file c))) :
    lookup (scanSts rootfs l st).fs rp = none ∨
      (lookup (scanSts rootfs l st).fs rp = some (Node.link t) ∧
        lookup (scanSts rootfs l st).fs t = some (Node.file c)) := by
  induction l generalizing st with
  | nil => exact h
  | cons e l ih =>
    rw [scanSts]
    refine ih _ ?_
    rcases h with h | ⟨h1, h2⟩
    · left
      rcases thinned_scanStepT rootfs st e rp with h3 | h3
      · exact h3
      · rw [h3, h]
    · rcases thinned_scanStepT rootfs st e rp with h3 | h3
      · exact Or.inl h3
      · refine Or.inr ⟨h3.trans h1, ?_⟩
        rw [scanStepT_frame rootfs st e t hto]
        exact h2

/-- Claim C7 counterexample: a dangling symbolic link at the replaced
path is NOT removed before the copy.  Layer A places the link `bad ->
/nope`; when layer B (a regular file `bad`) is scanned, `os::exists`
follows the link, finds nothing, and the whole removal branch is
skipped, so the scan ends with the link still in place. -/
theorem claim_C7_counterexample :
    (cbProvision [[(["bad"], Node.link ["nope"])]] ["r"] []).err = none ∧
    lookup (cbProvision [[(["bad"], Node.link ["nope"])]] ["r"] []).fs ["r", "bad"] =
      some (Node.link ["nope"]) ∧
    lookup
      (scanLayer ["r"] [(["bad"], Node.file "m")]
        (cbProvision [[(["bad"], Node.link ["nope"])]] ["r"] []).fs).1.fs
      ["r", "bad"] = some (Node.link ["nope"]) := by decide

/-- Claim C7, amended: during a Copy-backend layer pass, when an entry
of the layer replaces a path whose rootfs location holds a symbolic link
WHOSE TARGET EXISTS (os::exists follows links, so a dangling link is
skipped), the stat-then-lstat two-step check removes the link — as a
link, by plain unlink — during the scan, before the copy phase begins;
and the file the link pointed to (outside the rootfs) is left
unmodified by the whole pass. -/
theorem claim_C7_thm (rootfs : FPath) (layer : Layer) (fs0 : FS)
    (rel : FPath) (node : Node) (t : FPath) (c : String)
    (hmem : (rel, node) ∈ layer)
    (hlink : lookup fs0 (rootfs ++ rel) = some (Node.link t))
    (htgt : lookup fs0 t = some (Node.file c))
    (htout : lPre rootfs t = false) :
    lookup (scanLayer rootfs layer fs0).1.fs (rootfs ++ rel) = none ∧
    lookup (layerPassFull rootfs layer fs0).fs t = some (Node.file c) := by
  constructor
  · obtain ⟨l1, l2, hsplit⟩ := List.append_of_mem hmem
    subst hsplit
    rw [scanLayer_eq]
    simp only
    rw [scanSts_append]
    rw [show (((rel, node) :: l2 : Layer)) = [(rel, node)] ++ l2 from rfl,
      scanSts_append]
    refine scanSts_none rootfs l2 _ (rootfs ++ rel) ?_
    have hinv := scanSts_link_inv rootfs l1 ⟨[], fs0⟩ (rootfs ++ rel) t c htout
      (Or.inr ⟨hlink, htgt⟩)
    rcases hinv with hnone | ⟨h1, h2⟩
    · rw [show scanSts rootfs [(rel, node)] (scanSts rootfs l1 ⟨[], fs0⟩) =
        (scanStepT rootfs (scanSts rootfs l1 ⟨[], fs0⟩) (rel, node)).1 from rfl]
      rcases thinned_scanStepT rootfs (scanSts rootfs l1 ⟨[], fs0⟩) (rel, node)
        (rootfs ++ rel) with h3 | h3
      · exact h3
      · rw [h3, hnone]
    · rw [show scanSts rootfs [(rel, node)] (scanSts rootfs l1 ⟨[], fs0⟩) =
        (scanStepT rootfs (scanSts rootfs l1 ⟨[], fs0⟩) (rel, node)).1 from rfl]
      exact scanStepT_removes_link rootfs _ rel node t c h1 h2
  · rw [layerPassFull_frame rootfs layer fs0 t htout]
    exact htgt

theorem claim_C7_witness :
    lookup
      (scanLayer ["r"] [(["bad"], Node.file "m")]
        [(["r"], Node.dir), (["r", "bad"], Node.link ["usr", "sh"]),
          (["usr"], Node.dir), (["usr", "sh"], Node.file "SH")]).1.fs
      (["r"] ++ ["bad"]) = none ∧
    lookup
      (layerPassFull ["r"] [(["bad"], Node.file "m")]
        [(["r"], Node.dir), (["r", "bad"], Node.link ["usr", "sh"]),
          (["usr"], Node.dir), (["usr", "sh"], Node.file "SH")]).fs
      ["usr", "sh"] = some (Node.file "SH") :=
  claim_C7_thm ["r"] [(["bad"], Node.file "m")]
    [(["r"], Node.dir), (["r", "bad"], Node.link ["usr", "sh"]),
      (["usr"], Node.dir), (["usr", "sh"], Node.file "SH")]
    ["bad"] (Node.file "m") ["usr", "sh"] "SH"
    (by decide) (by decide) (by decide) (by decide)

theorem claim_C10_witness :
    copyBackendProvision [[(["a"], Node.file "A")]] ["r"] ["b1"] [] =
      copyBackendProvision [[(["a"], Node.file "A")]] ["r"] ["b2"] [] ∧
    lookup (copyBackendProvision [[(["a"], Node.file "A")]] ["r"] ["bd"]
        [(["bd"], Node.dir), (["bd", "s"], Node.file "S")]).fs ["bd", "s"] =
      lookup [(["bd"], Node.dir), (["bd", "s"], Node.file "S")] ["bd", "s"] ∧
    lookup (copyBackendDestroyP ["r"] ["bd"]
        [(["bd"], Node.dir), (["r"], Node.dir)]).1 ["bd"] =
      lookup [(["bd"], Node.dir), (["r"], Node.dir)] ["bd"] :=
  ⟨claim_C10_thm.1 [[(["a"], Node.file "A")]] ["r"] ["b1"] ["b2"] [],
    claim_C10_thm.2.2.2.1 [[(["a"], Node.file "A")]] ["r"] ["bd"]
      [(["bd"], Node.dir), (["bd", "s"], Node.file "S")] ["bd", "s"]
      (by decide) (by decide),
    claim_C10_thm.2.2.2.2.1 ["r"] ["bd"] [(["bd"], Node.dir), (["r"], Node.dir)]
      ["bd"] (by decide)⟩

end Mesos







